import Mathlib

/-!
Verification of the text-normalization pass in
`src/dataset/pipeline/step4_fix_dataset.py`.

Text is modelled as `List Char` (named `Str`).  The two translation tables
(`MEDICAL_TERMS`, `LABEL_MAPPING`) live in `config_postprocess.py`, which is
external configuration; following the design notes of the spec they are passed
as explicit association-list parameters.  Python values that can appear in the
`output` field are modelled by `PyVal`; code that can raise returns `Except`.
-/

set_option maxRecDepth 4000

abbrev Str := List Char

/-- A Python value as it can appear in the `output` field of a record: `None`,
a string, or some other (non-string) value, represented by an `Int`. -/
inductive PyVal where
  | vnone : PyVal
  | vstr (s : Str) : PyVal
  | vint (n : Int) : PyVal
deriving DecidableEq

/-- Python truthiness of a `PyVal` (`bool(v)`): `None` is falsy, a string is
truthy iff nonempty, an int is truthy iff nonzero. -/
def pyTruthy : PyVal → Bool
  | .vnone => false
  | .vstr s => !s.isEmpty
  | .vint n => n != 0

/-- Word character for the regex `\b` boundary (`\w` in Python `re`): here
ASCII alphanumerics, underscore, and Hangul syllables — the alphabet the texts of this
pipeline are drawn from. -/
def isWordChar (c : Char) : Bool :=
  c.isAlphanum || c = '_' || (0xAC00 ≤ c.val && c.val ≤ 0xD7A3)

/-- Wordness of an optional character (`none` = outside the string, which
counts as non-word for `\b`). -/
def wordness : Option Char → Bool
  | none => false
  | some c => isWordChar c

/-- Case-insensitive match of a pattern against the opening of a text
(`re.IGNORECASE` on the escaped literal): true iff the text starts with the
pattern up to `toLower`. -/
def matchesCI : Str → Str → Bool
  | [], _ => true
  | _ :: _, [] => false
  | e :: es, t :: ts => (e.toLower = t.toLower) && matchesCI es ts

/-- Last character of a list, with a default (`lastCharD [c1,...,cn] d = cn`,
`lastCharD [] d = d`). -/
def lastCharD : Str → Char → Char
  | [], d => d
  | c :: cs, _ => lastCharD cs c

/-- Last character of a list, if any. -/
def lastChar? : Str → Option Char
  | [] => none
  | c :: cs => some (lastCharD cs c)

/-- Does the regex `\b eng \b` (with `eng = e :: es` escaped, `IGNORECASE`)
match at the current position?  `prev` is the character just before the
position in the original text.  Requires: a case-insensitive occurrence of
`eng` here, a word/non-word transition before it, and one after it. -/
def matchHere (e : Char) (es : Str) (prev : Option Char) : Str → Bool
  | [] => false
  | t :: ts =>
    matchesCI (e :: es) (t :: ts)
      && (wordness prev != isWordChar t)
      && (isWordChar (lastCharD (ts.take es.length) t) != wordness (ts.drop es.length).head?)

/-- Scanner for `re.sub` of the escaped pattern (word-bounded `eng`, IGNORECASE) over `text` with
`eng = e :: es` nonempty.  `skip` counts characters of a just-matched
occurrence still to be consumed (they produce no output); `prev` is the
previous character of the original text (for `\b`).  Matches are found
leftmost-first and do not overlap; the replacement is emitted verbatim and is
not rescanned. -/
def goSub (e : Char) (es kor : Str) : Nat → Option Char → Str → Str
  | _, _, [] => []
  | k + 1, _, t :: ts => goSub e es kor k (some t) ts
  | 0, prev, t :: ts =>
    if matchHere e es prev (t :: ts) then
      kor ++ goSub e es kor es.length (some t) ts
    else
      t :: goSub e es kor 0 (some t) ts

/-- One substitution pass of `translate_text`: replace every word-bounded,
case-insensitive occurrence of `eng` in `text` by `kor` (the `.sub` of the compiled
pattern).  The keys of a term table are nonempty; for `eng = []` the
pass is the identity. -/
def subTerm (eng kor text : Str) : Str :=
  match eng with
  | [] => text
  | e :: es => goSub e es kor 0 none text

/-- Stable insertion of a table entry into a list kept in descending order of
key length (`sorted(..., key=lambda x: len(x[0]), reverse=True)` keeps equal
lengths in their original order). -/
def insertDesc (p : Str × Str) : List (Str × Str) → List (Str × Str)
  | [] => [p]
  | q :: qs => if p.1.length < q.1.length then q :: insertDesc p qs else p :: q :: qs

/-- `sorted(terms.items(), key=lambda x: len(x[0]), reverse=True)`: the table
entries in descending key-length order, stably. -/
def sortTerms (terms : List (Str × Str)) : List (Str × Str) :=
  terms.foldr insertDesc []

/-- The loop body of `translate_text` on an (assumed nonempty) string: sort
the table by key length descending, then apply the passes in that order, each
pass reading the output of the previous pass. -/
def translateStr (terms : List (Str × Str)) (s : Str) : Str :=
  (sortTerms terms).foldl (fun acc p => subTerm p.1 p.2 acc) s

/-- `translate_text(text)`: falsy or non-string input is returned unchanged
(`if not text or not isinstance(text, str): return text`); otherwise every
table entry is substituted, longest key first. -/
def translate_text (terms : List (Str × Str)) (v : PyVal) : PyVal :=
  match v with
  | .vstr s => if s.isEmpty then v else .vstr (translateStr terms s)
  | _ => v

/-- The literal `"<label>"`. -/
def openTag : Str := '<' :: 'l' :: 'a' :: 'b' :: 'e' :: 'l' :: '>' :: []

/-- The literal `"</label>"`. -/
def closeTag : Str := '<' :: '/' :: 'l' :: 'a' :: 'b' :: 'e' :: 'l' :: '>' :: []

/-- Split a string around the first occurrence of `pat`
(`s.split(pat, 1)`-style): `some (a, b)` with `s = a ++ pat ++ b` and the
occurrence leftmost, or `none` when `pat` does not occur. -/
def splitFirst (pat : Str) : Str → Option (Str × Str)
  | [] => if pat.isEmpty then some ([], []) else none
  | c :: cs =>
    if pat.isPrefixOf (c :: cs) then
      some ([], (c :: cs).drop pat.length)
    else
      match splitFirst pat cs with
      | some (a, b) => some (c :: a, b)
      | none => none

/-- One attempted match of `<label>(.*?)</label>` at the current position:
`"<label>"` must open here, some `"</label>"` must follow, and the non-greedy
inner text up to the first closing tag must contain no newline — `.` without
`DOTALL` never matches a newline, and a longer inner would contain the same
newline, so a newline before the first closing tag fails the position. -/
def tagAt (l : Str) : Option (Str × Str) :=
  if openTag.isPrefixOf l then
    match splitFirst closeTag (l.drop openTag.length) with
    | some (inner, rest) => if '\n' ∈ inner then none else some (inner, rest)
    | none => none
  else none

/-- `re.search` of the pattern `<label>(.*?)</label>` over `s`: try a match at
each position left to right, returning the inner text of the first position
that matches. -/
def findInner : Str → Option Str
  | [] => none
  | c :: cs =>
    match tagAt (c :: cs) with
    | some (inner, _) => some inner
    | none => findInner cs

/-- Scanner for Python `str.replace(pat, rep)` (all occurrences, leftmost,
non-overlapping).  `skip` counts characters of a just-replaced occurrence
still to be consumed. -/
def replaceAllGo (pat rep : Str) : Nat → Str → Str
  | _, [] => []
  | k + 1, _ :: cs => replaceAllGo pat rep k cs
  | 0, c :: cs =>
    if pat.isPrefixOf (c :: cs) && !pat.isEmpty then
      rep ++ replaceAllGo pat rep (pat.length - 1) cs
    else
      c :: replaceAllGo pat rep 0 cs

/-- Python `s.replace(pat, rep)`: every leftmost non-overlapping occurrence of
`pat` in `s` is replaced by `rep` (the replacement is not rescanned). -/
def replaceAll (pat rep s : Str) : Str :=
  replaceAllGo pat rep 0 s

/-- The string body of `fix_output_label`: find the first `<label>INNER</label>`
span; if none, return the string; else look INNER up in the label map
(defaulting to INNER itself) and replace the literal span
`<label>INNER</label>` by `<label>MAPPED</label>` via `str.replace`. -/
def fixStr (lmap : List (Str × Str)) (s : Str) : Str :=
  match findInner s with
  | none => s
  | some inner =>
    replaceAll (openTag ++ inner ++ closeTag)
      (openTag ++ ((List.lookup inner lmap).getD inner) ++ closeTag) s

/-- `fix_output_label(output)`: falsy input is returned unchanged
(`if not output: return output`); a truthy string is rewritten by `fixStr`;
a truthy non-string reaches `re.search`, which raises `TypeError`
(modelled by `Except.error ()`). -/
def fix_output_label (lmap : List (Str × Str)) (v : PyVal) : Except Unit PyVal :=
  if pyTruthy v then
    match v with
    | .vstr s => .ok (.vstr (fixStr lmap s))
    | _ => .error ()
  else
    .ok v

/-- The translate-then-normalize composition on a string. -/
def transformStr (terms lmap : List (Str × Str)) (s : Str) : Str :=
  fixStr lmap (translateStr terms s)

/-- One iteration of the per-record loop in `process_dataset`: a falsy
`output` is appended unchanged and not counted; otherwise the record is
translated then label-fixed, and counted as changed iff the result differs
from the original. -/
def stepRecord (terms lmap : List (Str × Str)) (v : PyVal) :
    Except Unit (PyVal × Bool) :=
  if pyTruthy v then
    match fix_output_label lmap (translate_text terms v) with
    | .error e => .error e
    | .ok f => .ok (f, decide (f ≠ v))
  else
    .ok (v, false)

/-- The per-split loop of `process_dataset`: fold `stepRecord` over the
`output` column in order, collecting the transformed values positionally and
the changed count; an exception in any record aborts the whole loop. -/
def processSplit (terms lmap : List (Str × Str)) :
    List PyVal → Except Unit (List PyVal × Nat)
  | [] => .ok ([], 0)
  | v :: vs =>
    match stepRecord terms lmap v with
    | .error e => .error e
    | .ok (r, ch) =>
      match processSplit terms lmap vs with
      | .error e => .error e
      | .ok (rs, n) => .ok (r :: rs, n + (if ch then 1 else 0))

/-! ### Basic facts about `isPrefixOf`, `matchesCI`, and the scanners -/

theorem isPrefixOf_iff_append (p : Str) : ∀ l : Str, p.isPrefixOf l = true ↔ ∃ t, l = p ++ t := by
  induction p with
  | nil => intro l; simp [List.isPrefixOf]
  | cons x xs ih =>
    intro l
    cases l with
    | nil => simp [List.isPrefixOf]
    | cons y ys =>
      simp only [List.isPrefixOf, Bool.and_eq_true, beq_iff_eq, ih ys, List.cons_append,
        List.cons.injEq]
      constructor
      · rintro ⟨rfl, t, rfl⟩; exact ⟨t, rfl, rfl⟩
      · rintro ⟨t, rfl, rfl⟩; exact ⟨rfl, t, rfl⟩

theorem isPrefixOf_self_append (p t : Str) : p.isPrefixOf (p ++ t) = true := by
  exact (isPrefixOf_iff_append p (p ++ t)).2 ⟨t, rfl⟩

theorem isPrefixOf_append_left (p : Str) :
    ∀ a z : Str, p.length ≤ a.length → p.isPrefixOf (a ++ z) = p.isPrefixOf a := by
  induction p with
  | nil => intro a z _; simp [List.isPrefixOf]
  | cons x xs ih =>
    intro a z h
    cases a with
    | nil => simp at h
    | cons y ys =>
      simp only [List.cons_append, List.isPrefixOf, List.append_eq]
      rw [ih ys z (by simpa using h)]

theorem isPrefixOf_trans_append (p q l : Str) (h : (p ++ q).isPrefixOf l = true) :
    p.isPrefixOf l = true := by
  rcases (isPrefixOf_iff_append _ _).1 h with ⟨t, rfl⟩
  rw [List.append_assoc]
  exact isPrefixOf_self_append p (q ++ t)

theorem matchesCI_take (xs : Str) : ∀ ys : Str, matchesCI xs ys = matchesCI xs (ys.take xs.length) := by
  induction xs with
  | nil => intro ys; simp [matchesCI]
  | cons x xs ih =>
    intro ys
    cases ys with
    | nil => simp [matchesCI]
    | cons y ys => simp only [matchesCI, List.length_cons, List.take_succ_cons, ih ys]

theorem goSub_skip (e : Char) (es kor : Str) :
    ∀ (l : Str) (k : Nat) (prev : Option Char),
      ∃ p', goSub e es kor k prev l = goSub e es kor 0 p' (l.drop k) := by
  intro l
  induction l with
  | nil => intro k prev; exact ⟨prev, by cases k <;> rfl⟩
  | cons t ts ih =>
    intro k prev
    cases k with
    | zero => exact ⟨prev, rfl⟩
    | succ k' =>
      rcases ih k' (some t) with ⟨p', hp⟩
      exact ⟨p', hp⟩

theorem replaceAllGo_skip (pat rep : Str) :
    ∀ (l : Str) (k : Nat), replaceAllGo pat rep k l = replaceAllGo pat rep 0 (l.drop k) := by
  intro l
  induction l with
  | nil => intro k; cases k <;> rfl
  | cons t ts ih =>
    intro k
    cases k with
    | zero => rfl
    | succ k' => exact ih k'

/-! ### Decomposition of a substitution pass (for the verbatim-replacement claim)

A pass output is described by a list of (untouched chunk, matched piece)
pairs followed by a final chunk: the original text interleaves the chunks
with the matched pieces, and the output interleaves the same chunks with
verbatim copies of the replacement. -/

/-- Reassemble the original text from chunks and matched pieces. -/
def assembleOrig (ps : List (Str × Str)) (last : Str) : Str :=
  ps.foldr (fun p acc => p.1 ++ p.2 ++ acc) last

/-- Reassemble the output: each matched piece is replaced by `kor` verbatim. -/
def assembleRep (kor : Str) (ps : List (Str × Str)) (last : Str) : Str :=
  ps.foldr (fun p acc => p.1 ++ kor ++ acc) last

/-- Prepend one untouched character to a decomposition. -/
def consDecomp (c : Char) (ps : List (Str × Str)) (last : Str) :
    List (Str × Str) × Str :=
  match ps with
  | [] => ([], c :: last)
  | (a, m) :: rest => ((c :: a, m) :: rest, last)

theorem assembleOrig_consDecomp (c : Char) (ps : List (Str × Str)) (last : Str) :
    assembleOrig (consDecomp c ps last).1 (consDecomp c ps last).2 =
      c :: assembleOrig ps last := by
  cases ps with
  | nil => rfl
  | cons p rest => cases p; rfl

theorem assembleRep_consDecomp (kor : Str) (c : Char) (ps : List (Str × Str)) (last : Str) :
    assembleRep kor (consDecomp c ps last).1 (consDecomp c ps last).2 =
      c :: assembleRep kor ps last := by
  cases ps with
  | nil => rfl
  | cons p rest => cases p; rfl

theorem snd_mem_consDecomp (c : Char) (ps : List (Str × Str)) (last : Str) :
    ∀ q ∈ (consDecomp c ps last).1, ∃ q' ∈ ps, q.2 = q'.2 := by
  cases ps with
  | nil => intro q hq; simp [consDecomp] at hq
  | cons p rest =>
    cases p with
    | mk a m =>
      intro q hq
      rcases List.mem_cons.1 hq with h | h
      · exact ⟨(a, m), List.mem_cons_self _ _, by rw [h]⟩
      · exact ⟨q, List.mem_cons_of_mem _ h, rfl⟩

theorem matchesCI_length (xs : Str) :
    ∀ ys : Str, matchesCI xs ys = true → xs.length ≤ ys.length := by
  induction xs with
  | nil => intro ys _; simp
  | cons x xs ih =>
    intro ys h
    cases ys with
    | nil => simp [matchesCI] at h
    | cons y ys =>
      simp only [matchesCI, Bool.and_eq_true] at h
      simpa using ih ys h.2

theorem goSub_decomp (e : Char) (es kor : Str) :
    ∀ (n : Nat) (text : Str), text.length ≤ n → ∀ prev : Option Char,
      ∃ ps last, text = assembleOrig ps last ∧
        goSub e es kor 0 prev text = assembleRep kor ps last ∧
        ∀ p ∈ ps, matchesCI (e :: es) p.2 = true ∧ p.2.length = (e :: es).length := by
  intro n
  induction n with
  | zero =>
    intro text h prev
    have : text = [] := List.eq_nil_of_length_eq_zero (Nat.le_zero.1 h)
    subst this
    exact ⟨[], [], rfl, rfl, by intro p hp; simp at hp⟩
  | succ n ih =>
    intro text h prev
    cases text with
    | nil => exact ⟨[], [], rfl, rfl, by intro p hp; simp at hp⟩
    | cons t ts =>
      by_cases hm : matchHere e es prev (t :: ts) = true
      · have hgo : goSub e es kor 0 prev (t :: ts) =
            kor ++ goSub e es kor es.length (some t) ts := by
          simp [goSub, hm]
        rcases goSub_skip e es kor ts es.length (some t) with ⟨p', hskip⟩
        have hts : ts.length ≤ n := by
          have := h; simp only [List.length_cons] at this; omega
        have hlen : (ts.drop es.length).length ≤ n := by
          rw [List.length_drop]; omega
        rcases ih (ts.drop es.length) hlen p' with ⟨ps', last', horig, hrep, hmatch⟩
        have hci : matchesCI (e :: es) (t :: ts) = true := by
          simp only [matchHere, Bool.and_eq_true] at hm
          exact hm.1.1
        have hlenci : es.length ≤ ts.length := by
          have := matchesCI_length (e :: es) (t :: ts) hci
          simpa using this
        refine ⟨([], t :: ts.take es.length) :: ps', last', ?_, ?_, ?_⟩
        · show t :: ts = [] ++ ((t :: ts.take es.length) ++ assembleOrig ps' last')
          rw [← horig]
          simp [List.take_append_drop]
        · rw [hgo, hskip, hrep]
          rfl
        · intro p hp
          rcases List.mem_cons.1 hp with hp | hp
          · subst hp
            constructor
            · rw [matchesCI_take (e :: es) (t :: ts)] at hci
              simpa using hci
            · simp only [List.length_cons, List.length_take]
              omega
          · exact hmatch p hp
      · have hgo : goSub e es kor 0 prev (t :: ts) =
            t :: goSub e es kor 0 (some t) ts := by
          simp [goSub, hm]
        have hts : ts.length ≤ n := by
          have := h; simp only [List.length_cons] at this; omega
        rcases ih ts hts (some t) with ⟨ps', last', horig, hrep, hmatch⟩
        refine ⟨(consDecomp t ps' last').1, (consDecomp t ps' last').2, ?_, ?_, ?_⟩
        · rw [assembleOrig_consDecomp, ← horig]
        · rw [hgo, assembleRep_consDecomp, hrep]
        · intro p hp
          rcases snd_mem_consDecomp t ps' last' p hp with ⟨q, hq, he⟩
          rw [he]
          exact hmatch q hq

/-! ### Identity of a pass when no word-bounded occurrence exists -/

/-- Does the pattern `\b eng \b` (case-insensitive) match anywhere in `text`?
Decidable scan over all start positions. -/
def hasBoundaryOcc (eng text : Str) : Bool :=
  match eng with
  | [] => false
  | e :: es =>
    (List.range (text.length + 1)).any
      (fun i => matchHere e es (lastChar? (text.take i)) (text.drop i))

theorem matchHere_of_no_occ (e : Char) (es text : Str)
    (h : hasBoundaryOcc (e :: es) text = false) :
    ∀ i, i ≤ text.length →
      matchHere e es (lastChar? (text.take i)) (text.drop i) = false := by
  intro i hi
  by_contra hne
  have ht : matchHere e es (lastChar? (text.take i)) (text.drop i) = true := by
    cases hx : matchHere e es (lastChar? (text.take i)) (text.drop i)
    · exact absurd hx hne
    · rfl
  have : hasBoundaryOcc (e :: es) text = true := by
    simp only [hasBoundaryOcc, List.any_eq_true]
    exact ⟨i, List.mem_range.2 (by omega), ht⟩
  rw [this] at h
  exact Bool.noConfusion h

theorem lastCharD_concat (t : Char) : ∀ (b : Str) (d : Char), lastCharD (b ++ [t]) d = t := by
  intro b
  induction b with
  | nil => intro d; rfl
  | cons c cs ih => intro d; exact ih c

theorem lastChar?_concat (b : Str) (t : Char) : lastChar? (b ++ [t]) = some t := by
  cases b with
  | nil => rfl
  | cons c cs => simp [lastChar?, lastCharD_concat]

theorem goSub_id_of_no_match (e : Char) (es kor text : Str)
    (h : ∀ i, i ≤ text.length →
      matchHere e es (lastChar? (text.take i)) (text.drop i) = false) :
    ∀ (a b : Str), text = b ++ a → goSub e es kor 0 (lastChar? b) a = a := by
  intro a
  induction a with
  | nil => intro b _; rfl
  | cons t ts ih =>
    intro b hba
    have hb : b.length ≤ text.length := by rw [hba]; simp
    have h1 : matchHere e es (lastChar? b) (t :: ts) = false := by
      have hh := h b.length hb
      rwa [hba, List.take_left, List.drop_left] at hh
    have h2 : goSub e es kor 0 (lastChar? b) (t :: ts) =
        t :: goSub e es kor 0 (some t) ts := by
      simp [goSub, h1]
    rw [h2, show (some t) = lastChar? (b ++ [t]) from (lastChar?_concat b t).symm,
      ih (b ++ [t]) (by rw [hba, List.append_assoc]; rfl)]

theorem subTerm_id_of_no_occ (eng kor text : Str) (h : hasBoundaryOcc eng text = false) :
    subTerm eng kor text = text := by
  cases eng with
  | nil => rfl
  | cons e es =>
    have := goSub_id_of_no_match e es kor text (matchHere_of_no_occ e es text h) text [] rfl
    simpa [subTerm, lastChar?] using this

theorem mem_insertDesc (p q : Str × Str) :
    ∀ l : List (Str × Str), q ∈ insertDesc p l → q = p ∨ q ∈ l := by
  intro l
  induction l with
  | nil => intro h; simp [insertDesc] at h; exact Or.inl h
  | cons r rs ih =>
    intro h
    simp only [insertDesc] at h
    by_cases hc : p.1.length < r.1.length
    · rw [if_pos hc] at h
      rcases List.mem_cons.1 h with h | h
      · exact Or.inr (by rw [h]; exact List.mem_cons_self _ _)
      · rcases ih h with h | h
        · exact Or.inl h
        · exact Or.inr (List.mem_cons_of_mem _ h)
    · rw [if_neg hc] at h
      rcases List.mem_cons.1 h with h | h
      · exact Or.inl h
      · exact Or.inr h

theorem mem_sortTerms (q : Str × Str) :
    ∀ l : List (Str × Str), q ∈ sortTerms l → q ∈ l := by
  intro l
  induction l with
  | nil => intro h; simp [sortTerms] at h
  | cons p ps ih =>
    intro h
    have : q ∈ insertDesc p (sortTerms ps) := h
    rcases mem_insertDesc p q (sortTerms ps) this with h | h
    · exact h ▸ List.mem_cons_self _ _
    · exact List.mem_cons_of_mem _ (ih h)

theorem foldl_subTerm_id (s : Str) :
    ∀ l : List (Str × Str), (∀ p ∈ l, subTerm p.1 p.2 s = s) →
      l.foldl (fun acc p => subTerm p.1 p.2 acc) s = s := by
  intro l
  induction l with
  | nil => intro _; rfl
  | cons p ps ih =>
    intro h
    have h1 : subTerm p.1 p.2 s = s := h p (List.mem_cons_self _ _)
    show List.foldl (fun acc p => subTerm p.1 p.2 acc) (subTerm p.1 p.2 s) ps = s
    rw [h1]
    exact ih (fun q hq => h q (List.mem_cons_of_mem _ hq))

theorem translateStr_id (terms : List (Str × Str)) (s : Str)
    (h : ∀ p ∈ terms, hasBoundaryOcc p.1 s = false) : translateStr terms s = s :=
  foldl_subTerm_id s (sortTerms terms)
    (fun p hp => subTerm_id_of_no_occ p.1 p.2 s (h p (mem_sortTerms p terms hp)))

/-! ### The sort order: descending key length -/

theorem chain'_cons_insertDesc (p : Str × Str) :
    ∀ (qs : List (Str × Str)) (q : Str × Str),
      p.1.length ≤ q.1.length →
      List.Chain' (fun a b : Str × Str => b.1.length ≤ a.1.length) (q :: qs) →
      List.Chain' (fun a b : Str × Str => b.1.length ≤ a.1.length) (q :: insertDesc p qs) := by
  intro qs
  induction qs with
  | nil =>
    intro q hle _
    exact List.chain'_cons.2 ⟨hle, List.chain'_singleton p⟩
  | cons q' qs' ih =>
    intro q hle hch
    rcases List.chain'_cons.1 hch with ⟨hqq', hch'⟩
    simp only [insertDesc]
    by_cases hc : p.1.length < q'.1.length
    · rw [if_pos hc]
      exact List.chain'_cons.2 ⟨hqq', ih q' (Nat.le_of_lt hc) hch'⟩
    · rw [if_neg hc]
      exact List.chain'_cons.2 ⟨hle, List.chain'_cons.2 ⟨Nat.le_of_not_lt hc, hch'⟩⟩

theorem chain'_insertDesc (p : Str × Str) (l : List (Str × Str))
    (h : List.Chain' (fun a b : Str × Str => b.1.length ≤ a.1.length) l) :
    List.Chain' (fun a b : Str × Str => b.1.length ≤ a.1.length) (insertDesc p l) := by
  cases l with
  | nil => exact List.chain'_singleton p
  | cons q qs =>
    simp only [insertDesc]
    by_cases hc : p.1.length < q.1.length
    · rw [if_pos hc]
      exact chain'_cons_insertDesc p qs q (Nat.le_of_lt hc) h
    · rw [if_neg hc]
      exact List.chain'_cons.2 ⟨Nat.le_of_not_lt hc, h⟩

theorem sortTerms_sorted (terms : List (Str × Str)) :
    List.Chain' (fun a b : Str × Str => b.1.length ≤ a.1.length) (sortTerms terms) := by
  induction terms with
  | nil => exact List.chain'_nil
  | cons p ps ih => exact chain'_insertDesc p (sortTerms ps) ih

/-! ### Characterization of `splitFirst` and `findInner` -/

theorem splitFirst_sound (pat : Str) :
    ∀ s a b, splitFirst pat s = some (a, b) →
      s = a ++ pat ++ b ∧ ∀ i, i < a.length → pat.isPrefixOf (s.drop i) = false := by
  intro s
  induction s with
  | nil =>
    intro a b h
    simp only [splitFirst] at h
    by_cases hp : pat.isEmpty
    · rw [if_pos hp] at h
      injection h with h'
      injection h' with ha hb
      subst ha; subst hb
      refine ⟨?_, by intro i hi; simp at hi⟩
      have : pat = [] := by simpa [List.isEmpty_iff] using hp
      simp [this]
    · rw [if_neg hp] at h
      cases h
  | cons c cs ih =>
    intro a b h
    simp only [splitFirst] at h
    cases hp : pat.isPrefixOf (c :: cs) with
    | true =>
      rw [hp] at h
      simp only [if_true] at h
      injection h with h'
      injection h' with ha hb
      subst ha; subst hb
      refine ⟨?_, by intro i hi; simp at hi⟩
      rcases (isPrefixOf_iff_append pat (c :: cs)).1 hp with ⟨t, ht⟩
      rw [ht, List.drop_left, List.nil_append]
    | false =>
      rw [hp] at h
      simp only [Bool.false_eq_true, if_false] at h
      cases hs : splitFirst pat cs with
      | none => rw [hs] at h; cases h
      | some ab =>
        rw [hs] at h
        cases ab with
        | mk a' b' =>
          injection h with h'
          injection h' with ha hb
          subst ha; subst hb
          rcases ih a' b' hs with ⟨hdec, hno⟩
          constructor
          · rw [hdec]; rfl
          · intro i hi
            cases i with
            | zero => simpa using hp
            | succ j =>
              have hj : j < a'.length := by simpa using hi
              simpa using hno j hj

theorem splitFirst_none (pat : Str) :
    ∀ s, splitFirst pat s = none → ∀ i, pat.isPrefixOf (s.drop i) = false := by
  intro s
  induction s with
  | nil =>
    intro h i
    cases pat with
    | nil => simp [splitFirst] at h
    | cons p ps => simp [List.isPrefixOf]
  | cons c cs ih =>
    intro h i
    simp only [splitFirst] at h
    cases hp : pat.isPrefixOf (c :: cs) with
    | true => rw [hp] at h; simp at h
    | false =>
      rw [hp] at h
      simp only [Bool.false_eq_true, if_false] at h
      cases hs : splitFirst pat cs with
      | some ab => rw [hs] at h; cases ab; cases h
      | none =>
        cases i with
        | zero => simpa using hp
        | succ j => simpa using ih hs j

theorem splitFirst_at (pat : Str) (hne : pat ≠ []) :
    ∀ (a rest : Str),
      (∀ i, i < a.length → pat.isPrefixOf ((a ++ pat ++ rest).drop i) = false) →
      splitFirst pat (a ++ pat ++ rest) = some (a, rest) := by
  intro a
  induction a with
  | nil =>
    intro rest _
    cases pat with
    | nil => exact absurd rfl hne
    | cons p ps =>
      show splitFirst (p :: ps) (p :: (ps ++ rest)) = some ([], rest)
      have hpre : (p :: ps).isPrefixOf (p :: (ps ++ rest)) = true :=
        isPrefixOf_self_append (p :: ps) rest
      simp only [splitFirst, hpre, if_true]
      have : (p :: (ps ++ rest)).drop (p :: ps).length = rest := by
        exact List.drop_left (p :: ps) rest
      rw [this]
  | cons c a' ih =>
    intro rest h
    have h0 : pat.isPrefixOf (c :: (a' ++ pat ++ rest)) = false := by
      have := h 0 (by simp)
      simpa using this
    show splitFirst pat (c :: (a' ++ pat ++ rest)) = some (c :: a', rest)
    simp only [splitFirst, h0, Bool.false_eq_true, if_false]
    rw [ih rest (by intro i hi; simpa using h (i + 1) (by simpa using hi))]

theorem findInner_cons (c : Char) (cs : Str) :
    findInner (c :: cs) =
      match tagAt (c :: cs) with
      | some (inner, _) => some inner
      | none => findInner cs := rfl

theorem tagAt_none_of_not_open (l : Str) (h : openTag.isPrefixOf l = false) :
    tagAt l = none := by
  simp [tagAt, h]

theorem tagAt_eq_of (inner z : Str)
    (hno : ∀ i, i < inner.length →
      closeTag.isPrefixOf ((inner ++ closeTag ++ z).drop i) = false)
    (hnl : ¬ '\n' ∈ inner) :
    tagAt (openTag ++ (inner ++ (closeTag ++ z))) = some (inner, z) := by
  have hO : openTag.isPrefixOf (openTag ++ (inner ++ (closeTag ++ z))) = true :=
    isPrefixOf_self_append _ _
  have hdrop : (openTag ++ (inner ++ (closeTag ++ z))).drop openTag.length =
      inner ++ (closeTag ++ z) := List.drop_left _ _
  have hsf : splitFirst closeTag (inner ++ (closeTag ++ z)) = some (inner, z) := by
    have hcl : closeTag ≠ ([] : Str) := by simp [closeTag]
    have h1 := splitFirst_at closeTag hcl inner z hno
    rwa [List.append_assoc] at h1
  simp only [tagAt]
  rw [hO]
  simp only [if_true]
  rw [hdrop, hsf]
  simp only
  rw [if_neg hnl]

theorem tagAt_isSome_of (inner z : Str) (hnl : ¬ '\n' ∈ inner) :
    ∃ p, tagAt (openTag ++ (inner ++ (closeTag ++ z))) = some p := by
  have hO : openTag.isPrefixOf (openTag ++ (inner ++ (closeTag ++ z))) = true :=
    isPrefixOf_self_append _ _
  have hdrop : (openTag ++ (inner ++ (closeTag ++ z))).drop openTag.length =
      inner ++ (closeTag ++ z) := List.drop_left _ _
  cases hsf : splitFirst closeTag (inner ++ (closeTag ++ z)) with
  | none =>
    exfalso
    have habs := splitFirst_none closeTag _ hsf inner.length
    rw [List.drop_left, isPrefixOf_self_append] at habs
    exact Bool.noConfusion habs
  | some ab =>
    cases ab with
    | mk g rest =>
      rcases splitFirst_sound closeTag _ g rest hsf with ⟨hdec, hmin⟩
      have hglen : g.length ≤ inner.length := by
        by_contra hgt
        push_neg at hgt
        have habs := hmin inner.length hgt
        rw [List.drop_left, isPrefixOf_self_append] at habs
        exact Bool.noConfusion habs
      have hg : g = inner.take g.length := by
        have h1 : (inner ++ (closeTag ++ z)).take g.length =
            (g ++ closeTag ++ rest).take g.length := by rw [hdec]
        rw [List.take_append_of_le_length hglen] at h1
        rw [show g ++ closeTag ++ rest = g ++ (closeTag ++ rest) from
          List.append_assoc g closeTag rest] at h1
        rw [List.take_append_of_le_length (le_refl g.length), List.take_length] at h1
        exact h1.symm
      have hgnl : ¬ '\n' ∈ g := by
        rw [hg]
        intro hmem
        exact hnl (List.mem_of_mem_take hmem)
      refine ⟨(g, rest), ?_⟩
      simp only [tagAt]
      rw [hO]
      simp only [if_true]
      rw [hdrop, hsf]
      simp only
      rw [if_neg hgnl]

theorem findInner_some_spec :
    ∀ (s inner : Str), findInner s = some inner →
      ∃ b r, s = b ++ openTag ++ inner ++ closeTag ++ r ∧
        (∀ i, i < b.length → tagAt (s.drop i) = none) ∧
        (∀ i, i < inner.length →
          closeTag.isPrefixOf ((inner ++ closeTag ++ r).drop i) = false) ∧
        ¬ '\n' ∈ inner := by
  intro s
  induction s with
  | nil => intro inner h; cases h
  | cons c cs ih =>
    intro inner h
    rw [findInner_cons] at h
    cases hT : tagAt (c :: cs) with
    | some p =>
      cases p with
      | mk a rest =>
        rw [hT] at h
        simp only at h
        injection h with h'
        have hT' := hT
        simp only [tagAt] at hT'
        cases hO : openTag.isPrefixOf (c :: cs) with
        | false => rw [hO] at hT'; simp at hT'
        | true =>
          rw [hO] at hT'
          simp only [if_true] at hT'
          cases hsf : splitFirst closeTag ((c :: cs).drop openTag.length) with
          | none => rw [hsf] at hT'; simp at hT'
          | some ab =>
            rw [hsf] at hT'
            cases ab with
            | mk g rest' =>
              simp only at hT'
              by_cases hnl : '\n' ∈ g
              · rw [if_pos hnl] at hT'; cases hT'
              · rw [if_neg hnl] at hT'
                injection hT' with h2
                injection h2 with hga hrest
                rcases (isPrefixOf_iff_append openTag (c :: cs)).1 hO with ⟨tail, htail⟩
                have hdrop : (c :: cs).drop openTag.length = tail := by
                  rw [htail, List.drop_left]
                rw [hdrop] at hsf
                rcases splitFirst_sound closeTag tail g rest' hsf with ⟨hdec, hno⟩
                refine ⟨[], rest', ?_, by intro i hi; simp at hi, ?_, ?_⟩
                · rw [htail, hdec, ← h', ← hga]; rfl
                · intro i hi
                  rw [← h', ← hga] at hi ⊢
                  have := hno i hi
                  rwa [hdec] at this
                · rw [← h', ← hga]
                  exact hnl
    | none =>
      rw [hT] at h
      simp only at h
      rcases ih inner h with ⟨b', r', hdec, hbt, hin, hnl⟩
      refine ⟨c :: b', r', by rw [hdec]; rfl, ?_, hin, hnl⟩
      intro i hi
      cases i with
      | zero => simpa using hT
      | succ j =>
        have hj : j < b'.length := by simpa using hi
        simpa using hbt j hj

theorem findInner_none_tagAt :
    ∀ s, findInner s = none → ∀ i, tagAt (s.drop i) = none := by
  intro s
  induction s with
  | nil =>
    intro _ i
    have hO : openTag.isPrefixOf (([] : Str).drop i) = false := by
      rw [List.drop_nil]
      decide
    exact tagAt_none_of_not_open _ hO
  | cons c cs ih =>
    intro h i
    rw [findInner_cons] at h
    cases hT : tagAt (c :: cs) with
    | some p => rw [hT] at h; cases p; simp at h
    | none =>
      rw [hT] at h
      simp only at h
      cases i with
      | zero => simpa using hT
      | succ j => simpa using ih h j

theorem findInner_none_spec (s : Str) (h : findInner s = none) :
    ∀ b inner r, ¬ '\n' ∈ inner → s ≠ b ++ openTag ++ inner ++ closeTag ++ r := by
  intro b inner r hnl heq
  have h1 := findInner_none_tagAt s h b.length
  rw [heq] at h1
  rw [show b ++ openTag ++ inner ++ closeTag ++ r =
    b ++ (openTag ++ (inner ++ (closeTag ++ r))) by simp [List.append_assoc],
    List.drop_left] at h1
  rcases tagAt_isSome_of inner r hnl with ⟨p, hp⟩
  rw [hp] at h1
  cases h1

theorem findInner_of_decomp :
    ∀ (b inner r : Str),
      (∀ i, i < b.length →
        tagAt ((b ++ openTag ++ inner ++ closeTag ++ r).drop i) = none) →
      (∀ i, i < inner.length →
        closeTag.isPrefixOf ((inner ++ closeTag ++ r).drop i) = false) →
      ¬ '\n' ∈ inner →
      findInner (b ++ openTag ++ inner ++ closeTag ++ r) = some inner := by
  intro b
  induction b with
  | nil =>
    intro inner r _ hin hnl
    simp only [List.nil_append]
    rw [show openTag ++ inner ++ closeTag ++ r =
      openTag ++ (inner ++ (closeTag ++ r)) by simp [List.append_assoc]]
    show findInner ('<' :: (('l' :: 'a' :: 'b' :: 'e' :: 'l' :: '>' :: []) ++
      (inner ++ (closeTag ++ r)))) = some inner
    rw [findInner_cons]
    have hX : tagAt ('<' :: (('l' :: 'a' :: 'b' :: 'e' :: 'l' :: '>' :: []) ++
        (inner ++ (closeTag ++ r)))) = some (inner, r) := tagAt_eq_of inner r hin hnl
    rw [hX]
  | cons c b' ih =>
    intro inner r hb hin hnl
    have hshape : (c :: b') ++ openTag ++ inner ++ closeTag ++ r =
        c :: (b' ++ openTag ++ inner ++ closeTag ++ r) := by simp
    rw [hshape, findInner_cons]
    have h0 : tagAt (c :: (b' ++ openTag ++ inner ++ closeTag ++ r)) = none := by
      have := hb 0 (by simp)
      rwa [List.drop_zero, hshape] at this
    rw [h0]
    simp only
    exact ih inner r
      (by
        intro i hi
        have := hb (i + 1) (by simp; omega)
        rwa [hshape, List.drop_succ_cons] at this)
      hin hnl

theorem lookup_mem (a v : Str) :
    ∀ l : List (Str × Str), List.lookup a l = some v → (a, v) ∈ l := by
  intro l
  induction l with
  | nil => intro h; cases h
  | cons p ps ih =>
    intro h
    cases p with
    | mk k w =>
      simp only [List.lookup] at h
      cases hc : (a == k) with
      | true =>
        rw [hc] at h
        simp only at h
        injection h with h'
        have ha : a = k := by simpa using hc
        rw [ha, h']
        exact List.mem_cons_self _ _
      | false =>
        rw [hc] at h
        simp only at h
        exact List.mem_cons_of_mem _ (ih h)

/-! ### `replaceAll` facts -/

theorem replaceAll_self_aux (pat : Str) :
    ∀ (n : Nat) (s : Str), s.length ≤ n → replaceAll pat pat s = s := by
  intro n
  induction n with
  | zero =>
    intro s h
    have : s = [] := List.eq_nil_of_length_eq_zero (Nat.le_zero.1 h)
    subst this; rfl
  | succ n ih =>
    intro s h
    cases s with
    | nil => rfl
    | cons c cs =>
      show replaceAllGo pat pat 0 (c :: cs) = c :: cs
      by_cases hm : (pat.isPrefixOf (c :: cs) && !pat.isEmpty) = true
      · have hstep : replaceAllGo pat pat 0 (c :: cs) =
            pat ++ replaceAllGo pat pat (pat.length - 1) cs := by
          simp only [replaceAllGo, hm, if_true]
        rcases Bool.and_eq_true_iff.1 hm with ⟨hpre, hne⟩
        have hpat : pat ≠ [] := by
          intro hp; rw [hp] at hne; simp at hne
        rcases (isPrefixOf_iff_append pat (c :: cs)).1 hpre with ⟨t, ht⟩
        have hdt : cs.drop (pat.length - 1) = t := by
          cases pat with
          | nil => exact absurd rfl hpat
          | cons p ps =>
            have : (p :: ps) ++ t = p :: (ps ++ t) := rfl
            rw [this] at ht
            injection ht with _ h2
            rw [h2]
            simp [List.drop_left]
        rw [hstep, replaceAllGo_skip, hdt]
        have hts : t.length ≤ n := by
          have hlen := congrArg List.length ht
          have hplen : 1 ≤ pat.length := by
            cases pat with
            | nil => exact absurd rfl hpat
            | cons _ _ => simp
          simp only [List.length_cons, List.length_append] at hlen
          have := h
          simp only [List.length_cons] at this
          omega
        rw [show replaceAllGo pat pat 0 t = replaceAll pat pat t from rfl, ih t hts, ht]
      · have hcond : (pat.isPrefixOf (c :: cs) && !pat.isEmpty) = false := by
          cases hx : (pat.isPrefixOf (c :: cs) && !pat.isEmpty)
          · rfl
          · exact absurd hx hm
        have hstep : replaceAllGo pat pat 0 (c :: cs) =
            c :: replaceAllGo pat pat 0 cs := by
          simp only [replaceAllGo, hcond, Bool.false_eq_true, if_false]
        have hcs : cs.length ≤ n := by
          have := h; simp only [List.length_cons] at this; omega
        rw [hstep, show replaceAllGo pat pat 0 cs = replaceAll pat pat cs from rfl, ih cs hcs]

theorem replaceAll_self (pat s : Str) : replaceAll pat pat s = s :=
  replaceAll_self_aux pat s.length s le_rfl

theorem replaceAll_append_occ (pat rep : Str) (hne : pat ≠ []) :
    ∀ (b z : Str), pat.isPrefixOf z = true →
      (∀ i, i < b.length → pat.isPrefixOf ((b ++ z).drop i) = false) →
      replaceAll pat rep (b ++ z) = b ++ rep ++ replaceAll pat rep (z.drop pat.length) := by
  intro b
  induction b with
  | nil =>
    intro z hp _
    rcases (isPrefixOf_iff_append pat z).1 hp with ⟨t, ht⟩
    cases pat with
    | nil => exact absurd rfl hne
    | cons p ps =>
      rw [List.nil_append, ht]
      have hshape : (p :: ps) ++ t = p :: (ps ++ t) := rfl
      rw [hshape]
      show replaceAllGo (p :: ps) rep 0 (p :: (ps ++ t)) = _
      have hcond : ((p :: ps).isPrefixOf (p :: (ps ++ t)) && !(p :: ps).isEmpty) = true := by
        rw [show p :: (ps ++ t) = (p :: ps) ++ t from rfl]
        rw [isPrefixOf_self_append]
        rfl
      simp only [replaceAllGo, hcond, if_true]
      rw [replaceAllGo_skip]
      have hd1 : ps.length = (p :: ps).length - 1 := rfl
      have hdt : (ps ++ t).drop ((p :: ps).length - 1) = t := by
        rw [← hd1, List.drop_left]
      have hdt2 : (p :: (ps ++ t)).drop (p :: ps).length = t := by
        rw [show p :: (ps ++ t) = (p :: ps) ++ t from rfl, List.drop_left]
      rw [hdt, hdt2]
      rfl
  | cons c b' ih =>
    intro z hp h
    have hshape : (c :: b') ++ z = c :: (b' ++ z) := rfl
    rw [hshape]
    have h0 : pat.isPrefixOf (c :: (b' ++ z)) = false := by
      have := h 0 (by simp)
      rwa [List.drop_zero, hshape] at this
    show replaceAllGo pat rep 0 (c :: (b' ++ z)) = _
    have hcond : (pat.isPrefixOf (c :: (b' ++ z)) && !pat.isEmpty) = false := by
      rw [h0]; rfl
    simp only [replaceAllGo, hcond, Bool.false_eq_true, if_false]
    rw [show replaceAllGo pat rep 0 (b' ++ z) = replaceAll pat rep (b' ++ z) from rfl]
    rw [ih z hp (by
      intro i hi
      have := h (i + 1) (by simp; omega)
      rwa [hshape, List.drop_succ_cons] at this)]
    rfl

/-! ### Idempotence of the label normalizer -/

/-- The string contains no `<`, no `>`, and no newline (true of well-formed
label-map keys and values). -/
def cleanLabelB (l : Str) : Bool :=
  l.all (fun c => (c != '<') && (c != '>') && (c != '\n'))

theorem not_newline_mem_of_clean (M : Str) (hM : cleanLabelB M = true) : ¬ '\n' ∈ M := by
  intro hmem
  have := List.all_eq_true.1 hM '\n' hmem
  simp at this

theorem isPrefixOf_append_window (pat u : Str) (i : Nat) (h : i + pat.length ≤ u.length) :
    ∀ v : Str, pat.isPrefixOf ((u ++ v).drop i) = pat.isPrefixOf (u.drop i) := by
  intro v
  rw [List.drop_append_of_le_length (by omega)]
  exact isPrefixOf_append_left pat (u.drop i) v (by rw [List.length_drop]; omega)

theorem close_no_prefix_of_clean (M z : Str) (hM : cleanLabelB M = true) :
    ∀ i, i < M.length → closeTag.isPrefixOf ((M ++ z).drop i) = false := by
  intro i hi
  rw [List.drop_append_of_le_length (Nat.le_of_lt hi)]
  cases hMd : M.drop i with
  | nil =>
    exfalso
    have := congrArg List.length hMd
    rw [List.length_drop] at this
    simp at this
    omega
  | cons x xs =>
    have hx : x ∈ M := List.mem_of_mem_drop (by rw [hMd]; exact List.mem_cons_self x xs)
    have hprop := List.all_eq_true.1 hM x hx
    have hxne : x ≠ '<' := by
      intro hxe
      rw [hxe] at hprop
      simp at hprop
    have hbx : ('<' == x) = false := beq_eq_false_iff_ne.2 (fun h => hxne h.symm)
    show List.isPrefixOf closeTag (x :: (xs ++ z)) = false
    rw [show closeTag = '<' :: ('/' :: 'l' :: 'a' :: 'b' :: 'e' :: 'l' :: '>' :: []) from rfl]
    simp [List.isPrefixOf, hbx]

theorem mem_of_getElem?_eq (l : Str) (n : Nat) (a : Char) (h : l[n]? = some a) : a ∈ l := by
  rcases List.getElem?_eq_some.mp h with ⟨hlt, hget⟩
  exact hget ▸ List.getElem_mem hlt

theorem lt_of_getElem?_eq (l : Str) (n : Nat) (a : Char) (h : l[n]? = some a) : n < l.length :=
  (List.getElem?_eq_some.mp h).1

theorem getElem?_of_mem (l : Str) (a : Char) (h : a ∈ l) : ∃ n : Nat, l[n]? = some a := by
  rcases List.getElem_of_mem h with ⟨n, hn, he⟩
  exact ⟨n, by rw [List.getElem?_eq_getElem hn, he]⟩

/-- Transfer of a failed match attempt across a span rewrite: if scanning
position `i` inside the common prefix `b` fails on
`b ++ <label> ++ inner ++ </label> ++ r` (necessarily because a newline in `b`
precedes the first closing tag reachable from `i`), it also fails on
`b ++ <label> ++ M ++ </label> ++ r2` for any newline-free `M` and any `r2` —
the blocking newline and the absence of earlier closing tags lie in the shared
region. -/
theorem tagAt_none_transfer (b inner M r r2 : Str) (i : Nat) (hi : i < b.length)
    (hinner : ¬ '\n' ∈ inner)
    (hnone : tagAt (((b ++ openTag) ++ (inner ++ (closeTag ++ r))).drop i) = none) :
    tagAt (((b ++ openTag) ++ (M ++ (closeTag ++ r2))).drop i) = none := by
  have h7 : openTag.length = 7 := rfl
  have hUlen : (b ++ openTag).length = b.length + 7 := by
    rw [List.length_append, h7]
  have hwin : i + openTag.length ≤ (b ++ openTag).length := by
    rw [h7, hUlen]; omega
  cases hO2 : openTag.isPrefixOf (((b ++ openTag) ++ (M ++ (closeTag ++ r2))).drop i) with
  | false => exact tagAt_none_of_not_open _ hO2
  | true =>
    have hO : openTag.isPrefixOf (((b ++ openTag) ++ (inner ++ (closeTag ++ r))).drop i) = true := by
      rw [isPrefixOf_append_window openTag (b ++ openTag) i hwin]
      rw [← isPrefixOf_append_window openTag (b ++ openTag) i hwin (M ++ (closeTag ++ r2))]
      exact hO2
    have hdd : ∀ X : Str, (((b ++ openTag) ++ X).drop i).drop openTag.length =
        ((b ++ openTag) ++ X).drop (i + 7) := by
      intro X
      rw [List.drop_drop, h7]
    simp only [tagAt] at hnone
    rw [hO] at hnone
    simp only [if_true] at hnone
    rw [hdd] at hnone
    have hcloseY : ((b ++ openTag) ++ (inner ++ (closeTag ++ r))).drop
        (b.length + 7 + inner.length) = closeTag ++ r := by
      rw [show (b ++ openTag) ++ (inner ++ (closeTag ++ r)) =
        ((b ++ openTag) ++ inner) ++ (closeTag ++ r) by simp [List.append_assoc]]
      have hl : ((b ++ openTag) ++ inner).length = b.length + 7 + inner.length := by
        rw [List.length_append, hUlen]
      rw [← hl, List.drop_left]
    cases hsf : splitFirst closeTag
        (((b ++ openTag) ++ (inner ++ (closeTag ++ r))).drop (i + 7)) with
    | none =>
      exfalso
      have habs := splitFirst_none closeTag _ hsf (b.length + inner.length - i)
      rw [List.drop_drop] at habs
      have harith : i + 7 + (b.length + inner.length - i) = b.length + 7 + inner.length := by
        omega
      rw [harith, hcloseY, isPrefixOf_self_append] at habs
      exact Bool.noConfusion habs
    | some ab =>
      rw [hsf] at hnone
      cases ab with
      | mk g rest =>
        simp only at hnone
        by_cases hgnl : '\n' ∈ g
        case neg =>
          rw [if_neg hgnl] at hnone
          cases hnone
        case pos =>
          clear hnone
          rcases splitFirst_sound closeTag _ g rest hsf with ⟨hdecY, hminY⟩
          have hglen : g.length ≤ b.length + inner.length - i := by
            by_contra hgt
            push_neg at hgt
            have habs := hminY (b.length + inner.length - i) hgt
            rw [List.drop_drop] at habs
            have harith : i + 7 + (b.length + inner.length - i) =
                b.length + 7 + inner.length := by omega
            rw [harith, hcloseY, isPrefixOf_self_append] at habs
            exact Bool.noConfusion habs
          rcases getElem?_of_mem g '\n' hgnl with ⟨k, hk⟩
          have hklt : k < g.length := lt_of_getElem?_eq g k '\n' hk
          have hyq : ((b ++ openTag) ++ (inner ++ (closeTag ++ r)))[i + 7 + k]? =
              some '\n' := by
            have h1 : (((b ++ openTag) ++ (inner ++ (closeTag ++ r))).drop (i + 7))[k]? =
                some '\n' := by
              rw [hdecY]
              rw [show g ++ closeTag ++ rest = g ++ (closeTag ++ rest) from
                List.append_assoc _ _ _]
              rw [List.getElem?_append_left hklt]
              exact hk
            rw [List.getElem?_drop] at h1
            exact h1
          have hqb : i + 7 + k < b.length := by
            by_contra hge
            push_neg at hge
            have hqlt : i + 7 + k < b.length + 7 + inner.length := by omega
            have h2 : ((b ++ openTag) ++ (inner ++ (closeTag ++ r)))[i + 7 + k]? =
                (openTag ++ inner)[i + 7 + k - b.length]? := by
              rw [show (b ++ openTag) ++ (inner ++ (closeTag ++ r)) =
                b ++ ((openTag ++ inner) ++ (closeTag ++ r)) by simp [List.append_assoc]]
              rw [List.getElem?_append_right hge]
              exact List.getElem?_append_left (by
                rw [List.length_append, h7]
                omega)
            rw [h2] at hyq
            have hmem2 : '\n' ∈ openTag ++ inner := mem_of_getElem?_eq _ _ _ hyq
            rcases List.mem_append.1 hmem2 with hmo | hmi
            · exact absurd hmo (by decide)
            · exact hinner hmi
          simp only [tagAt]
          rw [hO2]
          simp only [if_true]
          rw [hdd]
          cases hsf2 : splitFirst closeTag
              (((b ++ openTag) ++ (M ++ (closeTag ++ r2))).drop (i + 7)) with
          | none => rfl
          | some ab2 =>
            cases ab2 with
            | mk g2 rest2 =>
              simp only
              rcases splitFirst_sound closeTag _ g2 rest2 hsf2 with ⟨hdecY2, hminY2⟩
              have hkg2 : k < g2.length := by
                by_contra hle
                push_neg at hle
                have hp2win : (i + 7 + g2.length) + closeTag.length ≤
                    (b ++ openTag).length := by
                  have h8 : closeTag.length = 8 := rfl
                  rw [h8, hUlen]
                  omega
                have hcp2 : closeTag.isPrefixOf
                    (((b ++ openTag) ++ (M ++ (closeTag ++ r2))).drop
                      (i + 7 + g2.length)) = true := by
                  have h3 : (((b ++ openTag) ++ (M ++ (closeTag ++ r2))).drop
                      (i + 7)).drop g2.length =
                      ((b ++ openTag) ++ (M ++ (closeTag ++ r2))).drop
                        (i + 7 + g2.length) := by
                    rw [List.drop_drop]
                  rw [← h3, hdecY2]
                  rw [show g2 ++ closeTag ++ rest2 = g2 ++ (closeTag ++ rest2) from
                    List.append_assoc _ _ _]
                  rw [List.drop_left]
                  exact isPrefixOf_self_append _ _
                have hcp : closeTag.isPrefixOf
                    (((b ++ openTag) ++ (inner ++ (closeTag ++ r))).drop
                      (i + 7 + g2.length)) = true := by
                  rw [isPrefixOf_append_window closeTag (b ++ openTag) _ hp2win]
                  rw [← isPrefixOf_append_window closeTag (b ++ openTag) _ hp2win
                    (M ++ (closeTag ++ r2))]
                  exact hcp2
                have habs := hminY g2.length (by omega)
                have h4 : (((b ++ openTag) ++ (inner ++ (closeTag ++ r))).drop
                    (i + 7)).drop g2.length =
                    ((b ++ openTag) ++ (inner ++ (closeTag ++ r))).drop
                      (i + 7 + g2.length) := by
                  rw [List.drop_drop]
                rw [h4, hcp] at habs
                exact Bool.noConfusion habs
              have hg2k : g2[k]? = some '\n' := by
                have h5 : (((b ++ openTag) ++ (M ++ (closeTag ++ r2))).drop
                    (i + 7))[k]? = g2[k]? := by
                  rw [hdecY2]
                  rw [show g2 ++ closeTag ++ rest2 = g2 ++ (closeTag ++ rest2) from
                    List.append_assoc _ _ _]
                  exact List.getElem?_append_left hkg2
                rw [← h5, List.getElem?_drop]
                have hb7 : i + 7 + k < (b ++ openTag).length := by
                  rw [hUlen]; omega
                have h6a : ((b ++ openTag) ++ (M ++ (closeTag ++ r2)))[i + 7 + k]? =
                    (b ++ openTag)[i + 7 + k]? := List.getElem?_append_left hb7
                have h6b : ((b ++ openTag) ++ (inner ++ (closeTag ++ r)))[i + 7 + k]? =
                    (b ++ openTag)[i + 7 + k]? := List.getElem?_append_left hb7
                rw [h6a, ← h6b]
                exact hyq
              have hmemg2 : '\n' ∈ g2 := mem_of_getElem?_eq _ _ _ hg2k
              rw [if_pos hmemg2]

theorem fixStr_idem (lmap : List (Str × Str))
    (hmap : ∀ p ∈ lmap, cleanLabelB p.1 = true ∧ cleanLabelB p.2 = true ∧
      List.lookup p.2 lmap = none) (s : Str) :
    fixStr lmap (fixStr lmap s) = fixStr lmap s := by
  cases hf : findInner s with
  | none =>
    have h1 : fixStr lmap s = s := by simp [fixStr, hf]
    rw [h1]
    exact h1
  | some inner =>
    cases hlk : List.lookup inner lmap with
    | none =>
      have h1 : fixStr lmap s = s := by
        simp only [fixStr, hf, hlk, Option.getD_none]
        exact replaceAll_self _ s
      rw [h1]
      exact h1
    | some M =>
      by_cases hMeq : M = inner
      · have h1 : fixStr lmap s = s := by
          simp only [fixStr, hf, hlk, Option.getD_some, hMeq]
          exact replaceAll_self _ s
        rw [h1]
        exact h1
      · rcases findInner_some_spec s inner hf with ⟨b, r, hdec, hb, hin, hnlInner⟩
        have hmem := lookup_mem inner M lmap hlk
        rcases hmap (inner, M) hmem with ⟨hAi, hAM, hlkM⟩
        have hnlM : ¬ '\n' ∈ M := not_newline_mem_of_clean M hAM
        have hpatne : openTag ++ inner ++ closeTag ≠ ([] : Str) := by
          intro hx
          have := congrArg List.length hx
          simp [openTag, closeTag] at this
        -- positions inside `b` admit no occurrence of the literal span
        have hnopat : ∀ i, i < b.length →
            (openTag ++ inner ++ closeTag).isPrefixOf (s.drop i) = false := by
          intro i hi
          cases hx : (openTag ++ inner ++ closeTag).isPrefixOf (s.drop i) with
          | false => rfl
          | true =>
            exfalso
            have hx2 : (openTag ++ (inner ++ closeTag)).isPrefixOf (s.drop i) = true := by
              rwa [← List.append_assoc]
            rcases (isPrefixOf_iff_append _ _).1 hx2 with ⟨t, ht⟩
            have ht2 : s.drop i = openTag ++ (inner ++ (closeTag ++ t)) := by
              rw [ht]; simp [List.append_assoc]
            rcases tagAt_isSome_of inner t hnlInner with ⟨p, hp⟩
            have hcontra := hb i hi
            rw [ht2, hp] at hcontra
            cases hcontra
        -- the first pass rewrites the span wherever it occurs
        have hsz : s = b ++ ((openTag ++ inner ++ closeTag) ++ r) := by
          rw [hdec]; simp [List.append_assoc]
        have hfix : fixStr lmap s =
            b ++ (openTag ++ M ++ closeTag) ++
              replaceAll (openTag ++ inner ++ closeTag) (openTag ++ M ++ closeTag) r := by
          simp only [fixStr, hf, hlk, Option.getD_some]
          rw [hsz]
          rw [replaceAll_append_occ (openTag ++ inner ++ closeTag) (openTag ++ M ++ closeTag)
            hpatne b ((openTag ++ inner ++ closeTag) ++ r)
            (isPrefixOf_self_append _ r)
            (by intro i hi; rw [← hsz]; exact hnopat i hi)]
          rw [List.drop_left]
        -- the first span of the rewritten text is `<label>M</label>`
        have hfind : findInner (b ++ openTag ++ M ++ closeTag ++
            replaceAll (openTag ++ inner ++ closeTag) (openTag ++ M ++ closeTag) r) =
            some M := by
          apply findInner_of_decomp
          · intro i hi
            have h1 : b ++ openTag ++ M ++ closeTag ++
                replaceAll (openTag ++ inner ++ closeTag) (openTag ++ M ++ closeTag) r =
                (b ++ openTag) ++ (M ++ (closeTag ++
                  replaceAll (openTag ++ inner ++ closeTag) (openTag ++ M ++ closeTag) r)) := by
              simp [List.append_assoc]
            have h2 : s = (b ++ openTag) ++ (inner ++ (closeTag ++ r)) := by
              rw [hdec]; simp [List.append_assoc]
            rw [h1]
            apply tagAt_none_transfer b inner M r _ i hi hnlInner
            rw [← h2]
            exact hb i hi
          · intro i hi
            have h3 : M ++ closeTag ++
                replaceAll (openTag ++ inner ++ closeTag) (openTag ++ M ++ closeTag) r =
                M ++ (closeTag ++
                  replaceAll (openTag ++ inner ++ closeTag) (openTag ++ M ++ closeTag) r) := by
              simp [List.append_assoc]
            rw [h3]
            exact close_no_prefix_of_clean M _ hAM i hi
          · exact hnlM
        have hsame : fixStr lmap (fixStr lmap s) = fixStr lmap s := by
          rw [hfix]
          have hre : b ++ (openTag ++ M ++ closeTag) ++
              replaceAll (openTag ++ inner ++ closeTag) (openTag ++ M ++ closeTag) r =
              b ++ openTag ++ M ++ closeTag ++
                replaceAll (openTag ++ inner ++ closeTag) (openTag ++ M ++ closeTag) r := by
            simp [List.append_assoc]
          rw [hre]
          simp only [fixStr, hfind, hlkM, Option.getD_none]
          exact replaceAll_self _ _
        exact hsame

/-! ### The dataset model -/

/-- One dataset row: the `output` field plus all other columns. -/
structure Row where
  output : PyVal
  rest : List (String × PyVal)
deriving DecidableEq

/-- The loaded dataset: the `train` and `test` splits. -/
structure HFDataset where
  train : List Row
  test : List Row
deriving DecidableEq

/-- `remove_columns("output")` followed by `add_column("output", outs)`:
replace the `output` of each row positionally, keeping all other columns. -/
def rebuildSplit (rows : List Row) (outs : List PyVal) : List Row :=
  List.zipWith (fun row o => { row with output := o }) rows outs

/-- `process_dataset` without the I/O and console shell: transform both
splits' `output` columns in order (train first, then test), rebuild the
columns positionally, and return the per-split changed counts. -/
def process_dataset (terms lmap : List (Str × Str)) (ds : HFDataset) :
    Except Unit (HFDataset × Nat × Nat) :=
  match processSplit terms lmap (ds.train.map Row.output) with
  | .error e => .error e
  | .ok (trainOuts, trainChanged) =>
    match processSplit terms lmap (ds.test.map Row.output) with
    | .error e => .error e
    | .ok (testOuts, testChanged) =>
      .ok ({ train := rebuildSplit ds.train trainOuts,
             test := rebuildSplit ds.test testOuts }, trainChanged, testChanged)

theorem processSplit_ok (terms lmap : List (Str × Str)) :
    ∀ (vs rs : List PyVal) (n : Nat),
      processSplit terms lmap vs = .ok (rs, n) →
      rs.length = vs.length ∧
      ∀ i (h : i < vs.length) (h' : i < rs.length),
        ∃ ch, stepRecord terms lmap (vs.get ⟨i, h⟩) = .ok (rs.get ⟨i, h'⟩, ch) := by
  intro vs
  induction vs with
  | nil =>
    intro rs n h
    simp only [processSplit] at h
    injection h with h'
    injection h' with h1 h2
    subst h1
    exact ⟨rfl, by intro i hi _; simp at hi⟩
  | cons v vs ih =>
    intro rs n h
    simp only [processSplit] at h
    cases hs : stepRecord terms lmap v with
    | error e => rw [hs] at h; cases h
    | ok p =>
      rw [hs] at h
      cases p with
      | mk r ch =>
        cases hp : processSplit terms lmap vs with
        | error e => rw [hp] at h; simp only at h; cases h
        | ok q =>
          rw [hp] at h
          cases q with
          | mk rs' n' =>
            simp only at h
            injection h with h'
            injection h' with h1 h2
            subst h1
            rcases ih rs' n' hp with ⟨hlen, hrel⟩
            refine ⟨by simp [hlen], ?_⟩
            intro i hi hi'
            cases i with
            | zero => exact ⟨ch, hs⟩
            | succ j =>
              have hj : j < vs.length := by simpa using hi
              have hj' : j < rs'.length := by simpa using hi'
              exact hrel j hj hj'

theorem rebuildSplit_length (rows : List Row) (outs : List PyVal)
    (h : outs.length = rows.length) : (rebuildSplit rows outs).length = rows.length := by
  simp [rebuildSplit, List.length_zipWith, h]

theorem rebuildSplit_get :
    ∀ (rows : List Row) (outs : List PyVal) (i : Nat) (hi : i < rows.length)
      (ho : i < outs.length) (h' : i < (rebuildSplit rows outs).length),
      (rebuildSplit rows outs).get ⟨i, h'⟩ =
        { rows.get ⟨i, hi⟩ with output := outs.get ⟨i, ho⟩ } := by
  intro rows
  induction rows with
  | nil => intro outs i hi _ _; simp at hi
  | cons row rows ih =>
    intro outs i hi ho h'
    cases outs with
    | nil => simp at ho
    | cons o os =>
      cases i with
      | zero => rfl
      | succ j =>
        have hj : j < rows.length := by simpa using hi
        have hjo : j < os.length := by simpa using ho
        have hj' : j < (rebuildSplit rows os).length := by
          simpa [rebuildSplit] using h'
        exact ih os j hj hjo hj'

/-! ### Replacement-template processing of `re.sub`

`pattern.sub(kor, text)` does not insert `kor` raw: the replacement string is
compiled as a template first (backslash escapes interpreted, bad escapes
raising `re.error`), and group references render parts of the match.  The
plain scanner `subTerm` above models the backslash-free fragment; the full
behaviour is modelled here and the two are proved to agree on backslash-free
replacement strings. -/

/-- One item of a compiled `re.sub` replacement template: a literal character
or a reference to group 0, the whole match — the patterns built by
`translate_text` (word-bounded escaped terms) contain no capturing groups, so
group 0 is the only group. -/
inductive TItem where
  | lit (c : Char) : TItem
  | whole : TItem
deriving DecidableEq

/-- The known letter escapes of a replacement template
(`\a \b \f \n \r \t \v` and the escaped backslash). -/
def escChar? (c : Char) : Option Char :=
  if c = 'n' then some '\n'
  else if c = 't' then some '\t'
  else if c = 'r' then some '\r'
  else if c = 'v' then some (Char.ofNat 11)
  else if c = 'f' then some (Char.ofNat 12)
  else if c = 'a' then some (Char.ofNat 7)
  else if c = 'b' then some (Char.ofNat 8)
  else if c = '\\' then some '\\'
  else none

def isOctDigit (c : Char) : Bool := '0' ≤ c && c ≤ '7'

def octVal (c : Char) : Nat := c.toNat - '0'.toNat

def isAsciiLetter (c : Char) : Bool :=
  ('a' ≤ c && c ≤ 'z') || ('A' ≤ c && c ≤ 'Z')

/-- A `\g<name>` group reference of the template: an all-digit name is a
group index, and only index 0 (the whole match) exists for this pattern; an
identifier would name a named group, of which there are none; an empty or
otherwise malformed name is an error. -/
def groupRefName (name : Str) : Except Unit TItem :=
  if name.isEmpty then .error ()
  else if name.all Char.isDigit then
    (if name.all (fun c => c = '0') then .ok .whole else .error ())
  else .error ()

/-- The template compiler of `re.sub` for a pattern with no capturing groups,
driven by a character-count fuel (each step consumes at least one leading
character, so `length` fuel always suffices).  Literal characters pass
through; a backslash starts an escape: the known letter escapes map to their
control characters, `\g<...>` is a group reference, `\0` with up to two more
octal digits and three-octal-digit escapes (value at most 255) are octal
character escapes, any other digit escape is an invalid group reference
(there are no groups), any other ASCII-letter escape is a bad escape, a
trailing backslash is a bad escape, and a backslash before any other
character is kept as both characters. -/
def parseTemplateF : Nat → Str → Except Unit (List TItem)
  | _, [] => .ok []
  | 0, _ :: _ => .error ()
  | fuel + 1, ch :: cs =>
    if ch = '\\' then
      match cs with
      | [] => .error ()
      | 'g' :: '<' :: gs =>
        match splitFirst ('>' :: []) gs with
        | none => .error ()
        | some (name, rest) =>
          match groupRefName name with
          | .error e => .error e
          | .ok it => (parseTemplateF fuel rest).map (fun items => it :: items)
      | 'g' :: _ => .error ()
      | '0' :: d1 :: d2 :: rest =>
        if isOctDigit d1 && isOctDigit d2 then
          (parseTemplateF fuel rest).map
            (fun items => TItem.lit (Char.ofNat (octVal d1 * 8 + octVal d2)) :: items)
        else if isOctDigit d1 then
          (parseTemplateF fuel (d2 :: rest)).map
            (fun items => TItem.lit (Char.ofNat (octVal d1)) :: items)
        else
          (parseTemplateF fuel (d1 :: d2 :: rest)).map
            (fun items => TItem.lit (Char.ofNat 0) :: items)
      | '0' :: d1 :: [] =>
        if isOctDigit d1 then .ok (TItem.lit (Char.ofNat (octVal d1)) :: [])
        else
          (parseTemplateF fuel (d1 :: [])).map
            (fun items => TItem.lit (Char.ofNat 0) :: items)
      | '0' :: [] => .ok (TItem.lit (Char.ofNat 0) :: [])
      | c :: rest =>
        if c.isDigit then
          match rest with
          | d2 :: d3 :: rest2 =>
            if isOctDigit c && isOctDigit d2 && isOctDigit d3 then
              (if octVal c * 64 + octVal d2 * 8 + octVal d3 ≤ 255 then
                (parseTemplateF fuel rest2).map
                  (fun items =>
                    TItem.lit (Char.ofNat (octVal c * 64 + octVal d2 * 8 + octVal d3))
                      :: items)
              else .error ())
            else .error ()
          | _ => .error ()
        else
          match escChar? c with
          | some ec => (parseTemplateF fuel rest).map (fun items => TItem.lit ec :: items)
          | none =>
            if isAsciiLetter c then .error ()
            else
              (parseTemplateF fuel rest).map
                (fun items => TItem.lit '\\' :: TItem.lit c :: items)
    else
      (parseTemplateF fuel cs).map (fun items => TItem.lit ch :: items)

/-- Compile a replacement template, with fuel sized to the template. -/
def parseTemplate (kor : Str) : Except Unit (List TItem) :=
  parseTemplateF kor.length kor

/-- Render a compiled template against the matched text: literals emit
themselves, group 0 emits the matched text. -/
def renderTemplate (items : List TItem) (matched : Str) : Str :=
  items.foldr
    (fun it acc =>
      match it with
      | TItem.lit ch => ch :: acc
      | TItem.whole => matched ++ acc) []

/-- The scanner of `subTerm`, emitting a rendered template per match instead
of a raw replacement string. -/
def goSubT (e : Char) (es : Str) (items : List TItem) : Nat → Option Char → Str → Str
  | _, _, [] => []
  | k + 1, _, t :: ts => goSubT e es items k (some t) ts
  | 0, prev, t :: ts =>
    if matchHere e es prev (t :: ts) then
      renderTemplate items (t :: ts.take es.length) ++
        goSubT e es items es.length (some t) ts
    else
      t :: goSubT e es items 0 (some t) ts

/-- Full model of one `pattern.sub(kor, text)` call of `translate_text`: the
replacement template is compiled first — a bad template raises `re.error`
even when nothing matches — then every word-bounded case-insensitive match of
the source term is replaced by the rendered template, in which group 0
renders as the matched text itself. -/
def subTermFull (eng kor text : Str) : Except Unit Str :=
  match parseTemplate kor with
  | .error e => .error e
  | .ok items =>
    .ok (match eng with
         | [] => text
         | e :: es => goSubT e es items 0 none text)

theorem parseTemplateF_no_backslash :
    ∀ (fuel : Nat) (kor : Str), kor.length ≤ fuel → ¬ '\\' ∈ kor →
      parseTemplateF fuel kor = .ok (kor.map TItem.lit) := by
  intro fuel
  induction fuel with
  | zero =>
    intro kor hlen _
    have : kor = [] := List.eq_nil_of_length_eq_zero (Nat.le_zero.1 hlen)
    subst this
    rfl
  | succ n ih =>
    intro kor hlen hmem
    cases kor with
    | nil => rfl
    | cons ch cs =>
      have hch : ¬ ch = '\\' := fun h => hmem (h ▸ List.mem_cons_self ch cs)
      show parseTemplateF (n + 1) (ch :: cs) = _
      simp only [parseTemplateF]
      rw [if_neg hch]
      rw [ih cs (by simp only [List.length_cons] at hlen; omega)
        (fun h => hmem (List.mem_cons_of_mem _ h))]
      rfl

theorem renderTemplate_lits : ∀ (kor matched : Str),
    renderTemplate (kor.map TItem.lit) matched = kor := by
  intro kor matched
  induction kor with
  | nil => rfl
  | cons c cs ih =>
    show c :: renderTemplate (cs.map TItem.lit) matched = c :: cs
    rw [ih]

theorem goSubT_lits (e : Char) (es kor : Str) :
    ∀ (text : Str) (k : Nat) (prev : Option Char),
      goSubT e es (kor.map TItem.lit) k prev text = goSub e es kor k prev text := by
  intro text
  induction text with
  | nil => intro k prev; cases k <;> rfl
  | cons t ts ih =>
    intro k prev
    cases k with
    | succ k2 => exact ih k2 (some t)
    | zero =>
      cases hm : matchHere e es prev (t :: ts) with
      | true =>
        show goSubT e es (kor.map TItem.lit) 0 prev (t :: ts) =
          goSub e es kor 0 prev (t :: ts)
        simp only [goSubT, goSub]
        rw [hm]
        simp only [if_true]
        rw [renderTemplate_lits, ih es.length (some t)]
      | false =>
        show goSubT e es (kor.map TItem.lit) 0 prev (t :: ts) =
          goSub e es kor 0 prev (t :: ts)
        simp only [goSubT, goSub]
        rw [hm]
        simp only [Bool.false_eq_true, if_false]
        rw [ih 0 (some t)]

theorem subTermFull_no_backslash (eng kor text : Str) (h : ¬ '\\' ∈ kor) :
    subTermFull eng kor text = .ok (subTerm eng kor text) := by
  have hp : parseTemplate kor = .ok (kor.map TItem.lit) :=
    parseTemplateF_no_backslash kor.length kor le_rfl h
  cases eng with
  | nil => simp [subTermFull, hp, subTerm]
  | cons e es =>
    simp only [subTermFull, hp]
    rw [goSubT_lits]
    rfl

/-! ## The claims -/

/-- C1: Longest-match priority of term translation: the table is applied in
order of source-term length descending (the sorted order is monotonically
non-increasing in key length for every table), so with terms
`{"skin cancer": "피부암", "cancer": "암"}` — in either table order — the
input `"skin cancer risk"` translates to `"피부암 risk"` and never to
`"skin 암 risk"`. -/
theorem claim_c1_longest_match :
    (∀ terms : List (Str × Str),
      List.Chain' (fun a b : Str × Str => b.1.length ≤ a.1.length) (sortTerms terms)) ∧
    translate_text [("skin cancer".data, "피부암".data), ("cancer".data, "암".data)]
      (.vstr "skin cancer risk".data) = .vstr "피부암 risk".data ∧
    translate_text [("cancer".data, "암".data), ("skin cancer".data, "피부암".data)]
      (.vstr "skin cancer risk".data) = .vstr "피부암 risk".data ∧
    translate_text [("cancer".data, "암".data), ("skin cancer".data, "피부암".data)]
      (.vstr "skin cancer risk".data) ≠ .vstr "skin 암 risk".data :=
  ⟨sortTerms_sorted, by decide, by decide, by decide⟩

/-- C4 counterexample: the replacement string is NOT always inserted
character-for-character as given in the table — `re.sub` first processes it
as a template: the two-character replacement `\n` is inserted as one newline
character, `\g<0>` is inserted as the matched text itself (here preserving
the matched case), and the replacement `\d` raises `re.error` (bad escape). -/
theorem claim_c4_counterexample :
    subTermFull "a".data ('\\' :: 'n' :: []) "a".data = .ok ('\n' :: []) ∧
    ('\n' :: []) ≠ ('\\' :: 'n' :: []) ∧
    subTermFull "ab".data ('\\' :: 'g' :: '<' :: '0' :: '>' :: '!' :: []) "AB".data =
      .ok ('A' :: 'B' :: '!' :: []) ∧
    subTermFull "a".data ('\\' :: 'd' :: []) "a".data = .error () :=
  ⟨by rfl, by decide, by rfl, by rfl⟩

/-- C4 (amended): verbatim replacement insertion holds for replacement
strings containing no backslash (as the localized-term tables here do): the
full template-processing substitution agrees with the plain scanner, and
every pass decomposes its input into untouched chunks interleaved with
case-insensitive matches of the source term, each exactly as long as the
source term, with each match replaced by the replacement string verbatim,
character for character, never case-adjusted.  (With a backslash the template
escapes are interpreted instead — see the counterexample.) -/
theorem claim_c4_amended (eng kor text : Str) (h : ¬ '\\' ∈ kor) :
    subTermFull eng kor text = .ok (subTerm eng kor text) ∧
    ∃ ps last, text = assembleOrig ps last ∧
      subTerm eng kor text = assembleRep kor ps last ∧
      ∀ p ∈ ps, matchesCI eng p.2 = true ∧ p.2.length = eng.length := by
  refine ⟨subTermFull_no_backslash eng kor text h, ?_⟩
  cases eng with
  | nil => exact ⟨[], text, rfl, rfl, by intro p hp; simp at hp⟩
  | cons e es => exact goSub_decomp e es kor text.length text le_rfl none

theorem claim_c4_amended_witness :
    subTermFull "cancer".data "암".data "skin cancer risk".data =
      .ok (subTerm "cancer".data "암".data "skin cancer risk".data) ∧
    ∃ ps last, "skin cancer risk".data = assembleOrig ps last ∧
      subTerm "cancer".data "암".data "skin cancer risk".data =
        assembleRep "암".data ps last ∧
      ∀ p ∈ ps, matchesCI "cancer".data p.2 = true ∧
        p.2.length = "cancer".data.length :=
  claim_c4_amended "cancer".data "암".data "skin cancer risk".data (by decide)

/-- C5: End-to-end per-split scenario: a split of 3 records with outputs
`["skin cancer found", None, "<label>old</label> ok"]`, term table
`{"skin cancer": "피부암"}` and label map `{"old": "new"}` yields
`["피부암 found", None, "<label>new</label> ok"]` with changed-count exactly 2
(the absent record passes through uncounted). -/
theorem claim_c5_end_to_end :
    processSplit [("skin cancer".data, "피부암".data)] [("old".data, "new".data)]
      [.vstr "skin cancer found".data, .vnone, .vstr "<label>old</label> ok".data] =
      .ok ([.vstr "피부암 found".data, .vnone, .vstr "<label>new</label> ok".data], 2) := by
  rfl

/-- C7: Word-boundary respect: when no source term of the table has a
word-bounded (case-insensitive) occurrence in the text, translation returns
the text unchanged; in particular `{"rash": "발진"}` leaves
`"crash course"` unchanged, since `rash` occurs only inside `crash`. -/
theorem claim_c7_word_boundary (terms : List (Str × Str)) (text : Str)
    (h : ∀ p ∈ terms, hasBoundaryOcc p.1 text = false) :
    translate_text terms (.vstr text) = .vstr text := by
  simp only [translate_text]
  by_cases he : text.isEmpty = true
  · rw [if_pos he]
  · rw [if_neg he, translateStr_id terms text h]

theorem claim_c7_witness :
    (∀ p ∈ [("rash".data, "발진".data)], hasBoundaryOcc p.1 "crash course".data = false) ∧
    translate_text [("rash".data, "발진".data)] (.vstr "crash course".data) =
      .vstr "crash course".data :=
  ⟨by decide, claim_c7_word_boundary [("rash".data, "발진".data)] "crash course".data (by decide)⟩

/-- C9: Label-map identity default: when the INNER of the first span is absent from
the label map, the normalizer returns the text unchanged; in particular with
labelMap `{"A": "X"}` the input `"<label>B</label> text"` is unchanged. -/
theorem claim_c9_identity_default (lmap : List (Str × Str)) (s inner : Str)
    (hf : findInner s = some inner) (hlk : List.lookup inner lmap = none) :
    fixStr lmap s = s := by
  simp only [fixStr, hf, hlk, Option.getD_none]
  exact replaceAll_self _ s

theorem claim_c9_witness :
    findInner "<label>B</label> text".data = some "B".data ∧
    List.lookup "B".data [("A".data, "X".data)] = none ∧
    fixStr [("A".data, "X".data)] "<label>B</label> text".data =
      "<label>B</label> text".data :=
  ⟨by decide, by decide,
    claim_c9_identity_default [("A".data, "X".data)] "<label>B</label> text".data "B".data
      (by decide) (by decide)⟩

/-- C2 counterexample: with labelMap `{"A": "X"}` and a text containing the
literal span `<label>A</label>` twice, the normalizer rewrites BOTH
occurrences (Python `str.replace` replaces all occurrences), not only the
first one as the claim states. -/
theorem claim_c2_counterexample :
    fixStr [("A".data, "X".data)] "<label>A</label> and <label>A</label>".data =
      "<label>X</label> and <label>X</label>".data ∧
    fixStr [("A".data, "X".data)] "<label>A</label> and <label>A</label>".data ≠
      "<label>X</label> and <label>A</label>".data :=
  ⟨by decide, by decide⟩

/-- C2 (amended): the normalizer replaces EVERY leftmost non-overlapping
textual occurrence of the literal substring `<label>INNER</label>` by
`<label>MAPPED</label>`; in particular a second occurrence after the first is
rewritten as well.  Hypotheses: INNER is newline-free (the pattern `.` does
not match a newline), the first span starts after `a` (no earlier `<label>`),
INNER is non-greedy (no earlier `</label>` inside it), and the separator `bb`
contains no further start of the literal span. -/
theorem claim_c2_amended (lmap : List (Str × Str)) (a inner bb c : Str)
    (Hnl : ¬ '\n' ∈ inner)
    (H1 : ∀ i, i < a.length →
      openTag.isPrefixOf ((a ++ openTag ++ inner ++ closeTag ++ bb ++
        openTag ++ inner ++ closeTag ++ c).drop i) = false)
    (H2 : ∀ i, i < inner.length →
      closeTag.isPrefixOf ((inner ++ closeTag ++ bb ++
        openTag ++ inner ++ closeTag ++ c).drop i) = false)
    (H3 : ∀ i, i < bb.length →
      (openTag ++ inner ++ closeTag).isPrefixOf ((bb ++
        openTag ++ inner ++ closeTag ++ c).drop i) = false) :
    fixStr lmap (a ++ openTag ++ inner ++ closeTag ++ bb ++
        openTag ++ inner ++ closeTag ++ c) =
      a ++ openTag ++ ((List.lookup inner lmap).getD inner) ++ closeTag ++ bb ++
        openTag ++ ((List.lookup inner lmap).getD inner) ++ closeTag ++
        replaceAll (openTag ++ inner ++ closeTag)
          (openTag ++ ((List.lookup inner lmap).getD inner) ++ closeTag) c := by
  have hpatne : openTag ++ inner ++ closeTag ≠ ([] : Str) := by
    intro hx
    have := congrArg List.length hx
    simp [openTag, closeTag] at this
  have hfind : findInner (a ++ openTag ++ inner ++ closeTag ++ bb ++
      openTag ++ inner ++ closeTag ++ c) = some inner := by
    have h1 : a ++ openTag ++ inner ++ closeTag ++ bb ++
        openTag ++ inner ++ closeTag ++ c =
        a ++ openTag ++ inner ++ closeTag ++
          (bb ++ openTag ++ inner ++ closeTag ++ c) := by
      simp [List.append_assoc]
    rw [h1]
    apply findInner_of_decomp
    · intro i hi
      rw [← h1]
      exact tagAt_none_of_not_open _ (H1 i hi)
    · intro i hi
      have h2 : inner ++ closeTag ++ (bb ++ openTag ++ inner ++ closeTag ++ c) =
          inner ++ closeTag ++ bb ++ openTag ++ inner ++ closeTag ++ c := by
        simp [List.append_assoc]
      rw [h2]
      exact H2 i hi
    · exact Hnl
  simp only [fixStr, hfind]
  have hz1 : a ++ openTag ++ inner ++ closeTag ++ bb ++
      openTag ++ inner ++ closeTag ++ c =
      a ++ ((openTag ++ inner ++ closeTag) ++
        (bb ++ ((openTag ++ inner ++ closeTag) ++ c))) := by
    simp [List.append_assoc]
  have hnopat1 : ∀ i, i < a.length →
      (openTag ++ inner ++ closeTag).isPrefixOf
        ((a ++ ((openTag ++ inner ++ closeTag) ++
          (bb ++ ((openTag ++ inner ++ closeTag) ++ c)))).drop i) = false := by
    intro i hi
    rw [← hz1]
    cases hx : (openTag ++ inner ++ closeTag).isPrefixOf
        ((a ++ openTag ++ inner ++ closeTag ++ bb ++
          openTag ++ inner ++ closeTag ++ c).drop i) with
    | false => rfl
    | true =>
      exfalso
      have hx' : (openTag ++ (inner ++ closeTag)).isPrefixOf
          ((a ++ openTag ++ inner ++ closeTag ++ bb ++
            openTag ++ inner ++ closeTag ++ c).drop i) = true := by
        rwa [← List.append_assoc]
      have := isPrefixOf_trans_append openTag (inner ++ closeTag) _ hx'
      rw [H1 i hi] at this
      exact Bool.noConfusion this
  rw [hz1, replaceAll_append_occ (openTag ++ inner ++ closeTag) _ hpatne a
    ((openTag ++ inner ++ closeTag) ++ (bb ++ ((openTag ++ inner ++ closeTag) ++ c)))
    (isPrefixOf_self_append _ _) hnopat1, List.drop_left]
  have hnopat2 : ∀ i, i < bb.length →
      (openTag ++ inner ++ closeTag).isPrefixOf
        ((bb ++ ((openTag ++ inner ++ closeTag) ++ c)).drop i) = false := by
    intro i hi
    have h3 : bb ++ ((openTag ++ inner ++ closeTag) ++ c) =
        bb ++ openTag ++ inner ++ closeTag ++ c := by
      simp [List.append_assoc]
    rw [h3]
    exact H3 i hi
  rw [replaceAll_append_occ (openTag ++ inner ++ closeTag) _ hpatne bb
    ((openTag ++ inner ++ closeTag) ++ c) (isPrefixOf_self_append _ _) hnopat2,
    List.drop_left]
  simp [List.append_assoc]

theorem claim_c2_amended_witness :
    fixStr [("A".data, "X".data)]
      ("zz".data ++ openTag ++ "A".data ++ closeTag ++ "-".data ++
        openTag ++ "A".data ++ closeTag ++ "w".data) =
      "zz".data ++ openTag ++
          ((List.lookup "A".data [("A".data, "X".data)]).getD "A".data) ++ closeTag ++
        "-".data ++ openTag ++
          ((List.lookup "A".data [("A".data, "X".data)]).getD "A".data) ++ closeTag ++
        replaceAll (openTag ++ "A".data ++ closeTag)
          (openTag ++ ((List.lookup "A".data [("A".data, "X".data)]).getD "A".data) ++ closeTag)
          "w".data :=
  claim_c2_amended [("A".data, "X".data)] "zz".data "A".data "-".data "w".data
    (by decide) (by decide) (by decide) (by decide)

/-- C3 counterexample: a record whose `output` is the truthy non-string `1`
does NOT pass through unchanged: `translate_text` returns it unchanged, but
`fix_output_label` reaches `re.search` with a non-string and raises
(`TypeError`), so the per-record transformation raises rather than returning
the value. -/
theorem claim_c3_counterexample :
    translate_text [] (.vint 1) = .vint 1 ∧
    fix_output_label [] (.vint 1) = .error () ∧
    stepRecord [] [] (.vint 1) = .error () ∧
    ∀ r, stepRecord [] [] (.vint 1) ≠ .ok r :=
  ⟨rfl, rfl, rfl, by intro r h; cases h⟩

/-- C3 (amended): the per-record transformation is total on falsy values
(returned unchanged, uncounted) and on strings (always returns a value), but
a truthy non-string `output` passes through `translate_text` unchanged and
then raises a `TypeError` inside the `re.search` call of `fix_output_label`. -/
theorem claim_c3_amended (terms lmap : List (Str × Str)) (v : PyVal) :
    (pyTruthy v = false → stepRecord terms lmap v = .ok (v, false)) ∧
    (∀ s, v = .vstr s → ∃ r, stepRecord terms lmap v = .ok r) ∧
    (pyTruthy v = true → (∀ s, v ≠ .vstr s) → stepRecord terms lmap v = .error ()) := by
  refine ⟨?_, ?_, ?_⟩
  · intro h
    simp [stepRecord, h]
  · intro s hv
    subst hv
    by_cases ht : pyTruthy (.vstr s) = true
    · have htr : ∃ t, translate_text terms (.vstr s) = .vstr t := by
        by_cases he : s.isEmpty = true
        · exact ⟨s, by simp [translate_text, he]⟩
        · exact ⟨translateStr terms s, by simp [translate_text, he]⟩
      rcases htr with ⟨t, htr⟩
      have hfx : ∃ w, fix_output_label lmap (.vstr t) = .ok w := by
        by_cases ht2 : pyTruthy (.vstr t) = true
        · exact ⟨.vstr (fixStr lmap t), by simp [fix_output_label, ht2]⟩
        · have ht2' : pyTruthy (.vstr t) = false := by
            cases hx : pyTruthy (.vstr t) with
            | false => rfl
            | true => exact absurd hx ht2
          exact ⟨.vstr t, by simp [fix_output_label, ht2']⟩
      rcases hfx with ⟨w, hw⟩
      refine ⟨(w, decide (w ≠ .vstr s)), ?_⟩
      simp [stepRecord, ht, htr, hw]
    · have ht' : pyTruthy (.vstr s) = false := by
        cases hx : pyTruthy (.vstr s) with
        | false => rfl
        | true => exact absurd hx ht
      refine ⟨(.vstr s, false), ?_⟩
      simp [stepRecord, ht']
  · intro ht hnstr
    cases v with
    | vstr s => exact absurd rfl (hnstr s)
    | vnone => simp [pyTruthy] at ht
    | vint n =>
      have h1 : translate_text terms (.vint n) = .vint n := rfl
      have h2 : fix_output_label lmap (.vint n) = .error () := by
        simp [fix_output_label, ht]
      simp [stepRecord, ht, h1, h2]

theorem claim_c3_amended_witness :
    stepRecord [] [] .vnone = .ok (.vnone, false) ∧
    stepRecord [] [] (.vint 2) = .error () :=
  ⟨(claim_c3_amended [] [] .vnone).1 (by decide),
   (claim_c3_amended [] [] (.vint 2)).2.2 (by decide)
     (by intro s h; exact PyVal.noConfusion h)⟩

/-- C8 counterexample: a span whose INNER contains a newline is NOT
recognized — `.` without `DOTALL` never matches a newline — so on
`"<label>a\nb</label>"` the program finds no span and returns the text
unchanged, refuting "INNER is any content" and the unconditional
"if no such span exists". -/
theorem claim_c8_counterexample :
    findInner "<label>a\nb</label>".data = none ∧
    fixStr [("a\nb".data, "X".data)] "<label>a\nb</label>".data =
      "<label>a\nb</label>".data ∧
    "<label>a\nb</label>".data =
      ([] : Str) ++ openTag ++ "a\nb".data ++ closeTag ++ ([] : Str) :=
  ⟨by decide, by decide, by decide⟩

/-- C8 (amended): tag-span recognition with the newline restriction of `.`:
if `findInner` returns nothing, the string has no `<label>INNER</label>` span
with newline-free INNER and the normalizer returns it character-for-character
unchanged; if it returns INNER, then INNER is newline-free, the string
decomposes around a span whose start is leftmost among all newline-free-inner
spans, INNER contains no earlier closing tag (non-greedy: the first closing
tag terminates the match), and the normalizer rewrites the string by looking
INNER up in the label map (defaulting to INNER). -/
theorem claim_c8_amended (lmap : List (Str × Str)) (s : Str) :
    (findInner s = none →
      (∀ b inner r, ¬ '\n' ∈ inner → s ≠ b ++ openTag ++ inner ++ closeTag ++ r) ∧
      fixStr lmap s = s) ∧
    (∀ inner, findInner s = some inner →
      ¬ '\n' ∈ inner ∧
      (∃ b r, s = b ++ openTag ++ inner ++ closeTag ++ r ∧
        (∀ b' i' r', ¬ '\n' ∈ i' → s = b' ++ openTag ++ i' ++ closeTag ++ r' →
          b.length ≤ b'.length) ∧
        (∀ i, i < inner.length →
          closeTag.isPrefixOf ((inner ++ closeTag ++ r).drop i) = false)) ∧
      fixStr lmap s = replaceAll (openTag ++ inner ++ closeTag)
        (openTag ++ ((List.lookup inner lmap).getD inner) ++ closeTag) s) := by
  constructor
  · intro hf
    exact ⟨findInner_none_spec s hf, by simp [fixStr, hf]⟩
  · intro inner hf
    rcases findInner_some_spec s inner hf with ⟨b, r, hdec, hb, hin, hnl⟩
    refine ⟨hnl, ⟨b, r, hdec, ?_, hin⟩, by simp [fixStr, hf]⟩
    intro b' i' r' hnl' hdec'
    by_contra hlt
    push_neg at hlt
    have htag := hb b'.length hlt
    have hdrop : s.drop b'.length = openTag ++ (i' ++ (closeTag ++ r')) := by
      rw [hdec']
      rw [show b' ++ openTag ++ i' ++ closeTag ++ r' =
        b' ++ (openTag ++ (i' ++ (closeTag ++ r'))) by simp [List.append_assoc]]
      rw [List.drop_left]
    rcases tagAt_isSome_of i' r' hnl' with ⟨p, hp⟩
    rw [hdrop, hp] at htag
    cases htag

theorem claim_c8_amended_witness :
    (¬ '\n' ∈ "x".data ∧
      (∃ b r, "ab<label>x</label>cd".data = b ++ openTag ++ "x".data ++ closeTag ++ r ∧
        (∀ b' i' r', ¬ '\n' ∈ i' →
          "ab<label>x</label>cd".data = b' ++ openTag ++ i' ++ closeTag ++ r' →
          b.length ≤ b'.length) ∧
        (∀ i, i < "x".data.length →
          closeTag.isPrefixOf (("x".data ++ closeTag ++ r).drop i) = false)) ∧
      fixStr [("x".data, "y".data)] "ab<label>x</label>cd".data =
        replaceAll (openTag ++ "x".data ++ closeTag)
          (openTag ++ ((List.lookup "x".data [("x".data, "y".data)]).getD "x".data) ++ closeTag)
          "ab<label>x</label>cd".data) :=
  (claim_c8_amended [("x".data, "y".data)] "ab<label>x</label>cd".data).2
    "x".data (by decide)


/-- C6: Record-count conservation and frame condition: whenever
`process_dataset` succeeds, each rebuilt split has the same length as the
original, position `i` of the rebuilt `output` column is exactly the
transform of position `i` of the original column (row order preserved), and
every column other than `output` is untouched. -/
theorem claim_c6_frame (terms lmap : List (Str × Str)) (ds : HFDataset)
    (out : HFDataset × Nat × Nat)
    (h : process_dataset terms lmap ds = .ok out) :
    out.1.train.length = ds.train.length ∧
    out.1.test.length = ds.test.length ∧
    (∀ i (hi : i < ds.train.length) (hi' : i < out.1.train.length),
      (out.1.train.get ⟨i, hi'⟩).rest = (ds.train.get ⟨i, hi⟩).rest ∧
      ∃ ch, stepRecord terms lmap (ds.train.get ⟨i, hi⟩).output =
        .ok ((out.1.train.get ⟨i, hi'⟩).output, ch)) ∧
    (∀ i (hi : i < ds.test.length) (hi' : i < out.1.test.length),
      (out.1.test.get ⟨i, hi'⟩).rest = (ds.test.get ⟨i, hi⟩).rest ∧
      ∃ ch, stepRecord terms lmap (ds.test.get ⟨i, hi⟩).output =
        .ok ((out.1.test.get ⟨i, hi'⟩).output, ch)) := by
  simp only [process_dataset] at h
  cases hp1 : processSplit terms lmap (ds.train.map Row.output) with
  | error e => rw [hp1] at h; cases h
  | ok q1 =>
    rw [hp1] at h
    cases q1 with
    | mk trainOuts trainChanged =>
      cases hp2 : processSplit terms lmap (ds.test.map Row.output) with
      | error e => rw [hp2] at h; simp only at h; cases h
      | ok q2 =>
        rw [hp2] at h
        cases q2 with
        | mk testOuts testChanged =>
          simp only at h
          injection h with h'
          subst h'
          rcases processSplit_ok terms lmap _ _ _ hp1 with ⟨hlen1, hrel1⟩
          rcases processSplit_ok terms lmap _ _ _ hp2 with ⟨hlen2, hrel2⟩
          have hlen1' : trainOuts.length = ds.train.length := by simpa using hlen1
          have hlen2' : testOuts.length = ds.test.length := by simpa using hlen2
          refine ⟨rebuildSplit_length ds.train trainOuts hlen1',
            rebuildSplit_length ds.test testOuts hlen2', ?_, ?_⟩
          · intro i hi hi'
            have ho : i < trainOuts.length := by rw [hlen1']; exact hi
            rw [rebuildSplit_get ds.train trainOuts i hi ho hi']
            refine ⟨rfl, ?_⟩
            have hmi : i < (ds.train.map Row.output).length := by simpa using hi
            rcases hrel1 i hmi ho with ⟨ch, hch⟩
            have hgm : (ds.train.map Row.output).get ⟨i, hmi⟩ =
                (ds.train.get ⟨i, hi⟩).output := by
              simp [List.get_eq_getElem, List.getElem_map]
            rw [hgm] at hch
            exact ⟨ch, hch⟩
          · intro i hi hi'
            have ho : i < testOuts.length := by rw [hlen2']; exact hi
            rw [rebuildSplit_get ds.test testOuts i hi ho hi']
            refine ⟨rfl, ?_⟩
            have hmi : i < (ds.test.map Row.output).length := by simpa using hi
            rcases hrel2 i hmi ho with ⟨ch, hch⟩
            have hgm : (ds.test.map Row.output).get ⟨i, hmi⟩ =
                (ds.test.get ⟨i, hi⟩).output := by
              simp [List.get_eq_getElem, List.getElem_map]
            rw [hgm] at hch
            exact ⟨ch, hch⟩

/-- A tiny concrete dataset for exercising `process_dataset`. -/
def dsW : HFDataset :=
  ⟨[⟨.vstr "hi".data, [("id", .vint 3)]⟩], [⟨.vnone, []⟩]⟩

/-- The result `process_dataset` produces on `dsW` with table `hi → 안녕`. -/
def outW : HFDataset × Nat × Nat :=
  (⟨[⟨.vstr "안녕".data, [("id", .vint 3)]⟩], [⟨.vnone, []⟩]⟩, 1, 0)

theorem claim_c6_witness :
    outW.1.train.length = dsW.train.length ∧
    outW.1.test.length = dsW.test.length ∧
    (∀ i (hi : i < dsW.train.length) (hi' : i < outW.1.train.length),
      (outW.1.train.get ⟨i, hi'⟩).rest = (dsW.train.get ⟨i, hi⟩).rest ∧
      ∃ ch, stepRecord [("hi".data, "안녕".data)] [] (dsW.train.get ⟨i, hi⟩).output =
        .ok ((outW.1.train.get ⟨i, hi'⟩).output, ch)) ∧
    (∀ i (hi : i < dsW.test.length) (hi' : i < outW.1.test.length),
      (outW.1.test.get ⟨i, hi'⟩).rest = (dsW.test.get ⟨i, hi⟩).rest ∧
      ∃ ch, stepRecord [("hi".data, "안녕".data)] [] (dsW.test.get ⟨i, hi⟩).output =
        .ok ((outW.1.test.get ⟨i, hi'⟩).output, ch)) :=
  claim_c6_frame [("hi".data, "안녕".data)] [] dsW outW (by rfl)

/-- C10 counterexample: the idempotence claim fails under its own stated
table conditions.  Label map `{"A": "X", "B": "A</label>z"}` has values that
are not further-mapped keys, yet normalizing `"<label>B</label>"` twice keeps
rewriting (the first pass manufactures a new first span `<label>A</label>`
whose inner is a mapped key).  Term table `{"ab": "x", "x y": "z"}` has
replacement values that are not source terms, yet translating `"ab y"` twice
keeps rewriting (`"ab y"` → `"x y"` → `"z"`). -/
theorem claim_c10_counterexample :
    List.lookup "X".data [("A".data, "X".data), ("B".data, "A</label>z".data)] = none ∧
    List.lookup "A</label>z".data
      [("A".data, "X".data), ("B".data, "A</label>z".data)] = none ∧
    fixStr [("A".data, "X".data), ("B".data, "A</label>z".data)]
        (fixStr [("A".data, "X".data), ("B".data, "A</label>z".data)]
          "<label>B</label>".data) ≠
      fixStr [("A".data, "X".data), ("B".data, "A</label>z".data)]
        "<label>B</label>".data ∧
    translateStr [("ab".data, "x".data), ("x y".data, "z".data)]
        (translateStr [("ab".data, "x".data), ("x y".data, "z".data)] "ab y".data) ≠
      translateStr [("ab".data, "x".data), ("x y".data, "z".data)] "ab y".data :=
  ⟨by decide, by decide, by decide, by decide⟩

/-- C10 (amended): Idempotence of the combined transform holds under
strengthened, explicitly stated table conditions — (i) label-map keys and
values contain no angle bracket and no newline, and mapped values are not
themselves further-mapped keys, and (ii) no source term has a word-bounded
case-insensitive match in the once-translated and once-transformed outputs.
Then translation, normalization, and the combined translate-then-normalize
transform are each fixed points on their own output. -/
theorem claim_c10_idempotent (terms lmap : List (Str × Str)) (s : Str)
    (hmap : ∀ p ∈ lmap, cleanLabelB p.1 = true ∧ cleanLabelB p.2 = true ∧
      List.lookup p.2 lmap = none)
    (ht1 : ∀ p ∈ terms, hasBoundaryOcc p.1 (translateStr terms s) = false)
    (ht2 : ∀ p ∈ terms, hasBoundaryOcc p.1 (transformStr terms lmap s) = false) :
    translateStr terms (translateStr terms s) = translateStr terms s ∧
    fixStr lmap (fixStr lmap s) = fixStr lmap s ∧
    transformStr terms lmap (transformStr terms lmap s) = transformStr terms lmap s := by
  refine ⟨translateStr_id terms _ ht1, fixStr_idem lmap hmap s, ?_⟩
  show fixStr lmap (translateStr terms (transformStr terms lmap s)) =
    transformStr terms lmap s
  rw [translateStr_id terms _ ht2]
  exact fixStr_idem lmap hmap (translateStr terms s)

theorem claim_c10_witness :
    translateStr [("cancer".data, "암".data)]
        (translateStr [("cancer".data, "암".data)] "skin cancer <label>old</label>".data) =
      translateStr [("cancer".data, "암".data)] "skin cancer <label>old</label>".data ∧
    fixStr [("old".data, "new".data)]
        (fixStr [("old".data, "new".data)] "skin cancer <label>old</label>".data) =
      fixStr [("old".data, "new".data)] "skin cancer <label>old</label>".data ∧
    transformStr [("cancer".data, "암".data)] [("old".data, "new".data)]
        (transformStr [("cancer".data, "암".data)] [("old".data, "new".data)]
          "skin cancer <label>old</label>".data) =
      transformStr [("cancer".data, "암".data)] [("old".data, "new".data)]
        "skin cancer <label>old</label>".data :=
  claim_c10_idempotent [("cancer".data, "암".data)] [("old".data, "new".data)]
    "skin cancer <label>old</label>".data (by decide) (by decide) (by decide)
